import Mathlib

/-!
Verification development for the AdaFace wrapper (`adaface/adaface_wrapper.py`).

We shallowly embed the pure content of the wrapper's operations:
  * `update_text_encoder_subj_embs` — the embedding-injection loop,
  * `extend_tokenizer_and_text_encoder` — placeholder-token allocation and
    tokenizer/text-encoder extension,
  * `update_prompt` — regex-based prompt rewriting,
  * `prepare_adaface_embeddings` — per-encoder embedding concatenation with
    zero substitution for absent negative embeddings,
  * `load_unet_from_file` — legacy-checkpoint key-prefix sniffing,
  * `encode_prompt` / `forward` — backend dispatch, in particular the flux
    branch which ignores the negative prompt.

Embedding tables are lists of rows (`List (List Int)`); the tokenizer's
vocabulary is a list of token strings in id order (the id of a token is its
index); torch indexing errors are modelled by returning a `Bool` success
flag alongside the final state, so that partial mutation is observable.
-/

/-- A row of an embedding table. -/
abbrev Row := List Int

/-- An embedding table: one row per token id. -/
abbrev Table := List Row

/-- The loop body of `AdaFaceWrapper.update_text_encoder_subj_embs`:
`for i, token_id in enumerate(self.placeholder_token_ids): token_embeds[token_id] = subj_embs[i]`.
Python evaluates `subj_embs[i]` first (an `IndexError` if `i` is out of range),
then assigns `token_embeds[token_id]` (an `IndexError` if the id is out of
range).  On error the loop stops; rows already assigned stay assigned.  The
returned `Bool` is the success flag. -/
def injectGo (embs : List Row) : Table → List Nat → Nat → Table × Bool
  | t, [], _ => (t, true)
  | t, tokenId :: ids, i =>
    match embs[i]? with
    | none => (t, false)
    | some row =>
      if tokenId < t.length then
        injectGo embs (t.set tokenId row) ids (i + 1)
      else (t, false)

/-- `AdaFaceWrapper.update_text_encoder_subj_embs`: write row `i` of
`subj_embs` into the embedding table at index `placeholder_token_ids[i]`. -/
def update_text_encoder_subj_embs (t : Table) (placeholder_token_ids : List Nat)
    (subj_embs : List Row) : Table × Bool :=
  injectGo subj_embs t placeholder_token_ids 0

/-- Apply a list of `(index, row)` writes to a table, left to right. -/
def applyWrites (t : Table) (pairs : List (Nat × Row)) : Table :=
  pairs.foldl (fun acc p => acc.set p.1 p.2) t

theorem applyWrites_nil (t : Table) : applyWrites t [] = t := rfl

theorem applyWrites_cons (t : Table) (p : Nat × Row) (ps : List (Nat × Row)) :
    applyWrites t (p :: ps) = applyWrites (t.set p.1 p.2) ps := rfl

theorem applyWrites_length (pairs : List (Nat × Row)) (t : Table) :
    (applyWrites t pairs).length = t.length := by
  induction pairs generalizing t with
  | nil => rfl
  | cons p ps ih => rw [applyWrites_cons, ih (t.set p.1 p.2), List.length_set]

/-- Rows whose index is hit by no write are unchanged. -/
theorem applyWrites_frame (pairs : List (Nat × Row)) (t : Table) (j : Nat)
    (h : ∀ p ∈ pairs, p.1 ≠ j) :
    (applyWrites t pairs)[j]? = t[j]? := by
  induction pairs generalizing t with
  | nil => rfl
  | cons p ps ih =>
    rw [applyWrites_cons, ih (t.set p.1 p.2) (fun q hq => h q (List.mem_cons_of_mem _ hq))]
    exact List.getElem?_set_ne (h p (List.mem_cons_self _ _))

/-- Characterization of the injection loop: with all relevant write indices in
range, the loop applies the writes `(ids[k], embs[i+k])` for the indices that
exist, and succeeds iff the embedding rows do not run out. -/
theorem injectGo_spec (embs : List Row) :
    ∀ (ids : List Nat) (t : Table) (i : Nat),
      (∀ q ∈ ids.take (embs.length - i), q < t.length) →
      injectGo embs t ids i =
        (applyWrites t ((ids.take (embs.length - i)).zip (embs.drop i)),
         decide (ids.length ≤ embs.length - i)) := by
  intro ids
  induction ids with
  | nil =>
    intro t i _
    simp [injectGo, applyWrites]
  | cons tokenId ids ih =>
    intro t i hb
    by_cases hi : i < embs.length
    · have hgot : embs[i]? = some embs[i] := List.getElem?_eq_getElem hi
      have hpos : 0 < embs.length - i := Nat.sub_pos_of_lt hi
      obtain ⟨m, hm⟩ : ∃ m, embs.length - i = m + 1 :=
        ⟨embs.length - i - 1, by omega⟩
      have htk : tokenId < t.length := by
        apply hb
        rw [hm]
        exact List.mem_cons_self _ _
      have hdrop : embs.drop i = embs[i] :: embs.drop (i + 1) :=
        List.drop_eq_getElem_cons hi
      have hm' : embs.length - (i + 1) = m := by omega
      have hrec := ih (t.set tokenId embs[i]) (i + 1) ?_
      · rw [injectGo, hgot]
        simp only [htk, if_pos]
        rw [hrec, hm, hm', hdrop, List.take_succ_cons, List.zip_cons_cons,
          applyWrites_cons]
        refine Prod.ext rfl ?_
        simp only [List.length_cons, decide_eq_decide]
        omega
      · intro q hq
        rw [List.length_set]
        apply hb
        rw [hm, List.take_succ_cons]
        rw [hm'] at hq
        exact List.mem_cons_of_mem _ hq
    · have hnone : embs[i]? = none := by
        simp [List.getElem?_eq_none (Nat.le_of_not_lt hi)]
      have hz : embs.length - i = 0 := by omega
      rw [injectGo, hnone, hz]
      simp [applyWrites]

/-- When every placeholder id is in range and there are at least as many
embedding rows as ids, the injection loop succeeds and applies all writes. -/
theorem update_subj_embs_success (t : Table) (ids : List Nat) (embs : List Row)
    (hb : ∀ id ∈ ids, id < t.length) (hlen : ids.length ≤ embs.length) :
    update_text_encoder_subj_embs t ids embs = (applyWrites t (ids.zip embs), true) := by
  unfold update_text_encoder_subj_embs
  have htake : ids.take (embs.length - 0) = ids :=
    List.take_of_length_le (by omega)
  rw [injectGo_spec embs ids t 0 (by rw [htake]; exact hb), htake, List.drop_zero,
    decide_eq_true (by omega : ids.length ≤ embs.length - 0)]

/-- The injection loop never touches a row whose index is outside the id
list, whether it succeeds or fails part-way. -/
theorem injectGo_frame (embs : List Row) :
    ∀ (ids : List Nat) (t : Table) (i j : Nat), j ∉ ids →
      (injectGo embs t ids i).1[j]? = t[j]? := by
  intro ids
  induction ids with
  | nil => intro t i j _; rfl
  | cons tokenId ids ih =>
    intro t i j hj
    have hne : tokenId ≠ j := fun h => hj (h ▸ List.mem_cons_self _ _)
    have hj' : j ∉ ids := fun h => hj (List.mem_cons_of_mem _ h)
    cases hget : embs[i]? with
    | none => rw [injectGo, hget]
    | some row =>
      rw [injectGo, hget]
      by_cases htk : tokenId < t.length
      · simp only [htk, if_pos]
        rw [ih (t.set tokenId row) (i + 1) j hj', List.getElem?_set_ne hne]
      · simp only [htk, if_neg, ite_false]

/-- Reading back the rows at the written indices after `applyWrites` over a
zip of distinct in-range indices returns the written rows, row for row. -/
theorem applyWrites_readback :
    ∀ (ids : List Nat) (embs : List Row) (t : Table), ids.Nodup →
      (∀ id ∈ ids, id < t.length) → ids.length ≤ embs.length →
      ∀ k (hk : k < ids.length),
        (applyWrites t (ids.zip embs))[ids.get ⟨k, hk⟩]? = embs[k]? := by
  intro ids
  induction ids with
  | nil => intro embs t _ _ _ k hk; exact absurd hk (by simp)
  | cons tokenId ids ih =>
    intro embs t hnd hb hlen k hk
    cases embs with
    | nil => exact absurd hlen (by simp)
    | cons row embs =>
      rw [List.zip_cons_cons, applyWrites_cons]
      have htk : tokenId < t.length := hb tokenId (List.mem_cons_self _ _)
      cases k with
      | zero =>
        have hfr : ∀ p ∈ ids.zip embs, p.1 ≠ tokenId := by
          intro p hp heq
          exact (List.nodup_cons.mp hnd).1 (heq ▸ (List.of_mem_zip hp).1)
        rw [List.get, applyWrites_frame _ _ _ hfr, List.getElem?_set_self htk]
        simp
      | succ k =>
        have hk' : k < ids.length := by
          simpa using Nat.lt_of_succ_lt_succ hk
        have := ih embs (t.set tokenId row) (List.nodup_cons.mp hnd).2
          (by intro id hid; rw [List.length_set]; exact hb id (List.mem_cons_of_mem _ hid))
          (by simpa using Nat.le_of_succ_le_succ hlen) k hk'
        simpa using this

/-- C1, counterexample to the claim as stated: with 3-row table `[[1],[2],[3]]`
and ids `[0,1]` but only one embedding row `[[7]]`, the call does fail, yet the
table is left as `[[7],[2],[3]]`: row 0 was already written when the failure
surfaced, so the table is *not* unmodified.  Moreover with ids `[0]` and two
rows `[[7],[8]]` the counts also differ, yet the call succeeds. -/
theorem C1_counterexample :
    List.length ([0, 1] : List Nat) ≠ List.length ([[7]] : List Row) ∧
    update_text_encoder_subj_embs [[1], [2], [3]] [0, 1] [[7]] = ([[7], [2], [3]], false) ∧
    ([[7], [2], [3]] : Table) ≠ [[1], [2], [3]] ∧
    List.length ([0] : List Nat) ≠ List.length ([[7], [8]] : List Row) ∧
    (update_text_encoder_subj_embs [[1], [2], [3]] [0] [[7], [8]]).2 = true := by
  decide

/-- C1 (amended): `update_text_encoder_subj_embs` performs no up-front shape
check.  When the embedding tensor has fewer rows than there are placeholder
ids, the call fails with an index error, but only after the rows for the
first `subj_embs.rows` ids have already been written; when it has at least as
many rows as ids, the call succeeds (extra rows are silently ignored). -/
theorem C1_update_mismatch_amended (t : Table) (ids : List Nat) (embs : List Row)
    (hb : ∀ id ∈ ids.take embs.length, id < t.length) :
    (embs.length < ids.length →
      (update_text_encoder_subj_embs t ids embs).2 = false ∧
      (update_text_encoder_subj_embs t ids embs).1 =
        applyWrites t ((ids.take embs.length).zip embs)) ∧
    (ids.length ≤ embs.length →
      (update_text_encoder_subj_embs t ids embs).2 = true) := by
  have hspec := injectGo_spec embs ids t 0 (by simpa using hb)
  unfold update_text_encoder_subj_embs
  rw [hspec]
  constructor
  · intro hlt
    constructor
    · simp only [decide_eq_false_iff_not]
      omega
    · simp
  · intro hle
    simp only [decide_eq_true_eq]
    omega

/-- Witness for `C1_update_mismatch_amended` at concrete inputs. -/
theorem C1_update_mismatch_amended_witness :
    ((update_text_encoder_subj_embs [[1], [2], [3]] [0, 1] [[7]]).2 = false ∧
     (update_text_encoder_subj_embs [[1], [2], [3]] [0, 1] [[7]]).1 =
       applyWrites [[1], [2], [3]] ((([0, 1] : List Nat).take (List.length ([[7]] : List Row))).zip [[7]])) ∧
    (update_text_encoder_subj_embs [[1], [2], [3]] [0] [[7], [8]]).2 = true :=
  ⟨(C1_update_mismatch_amended [[1], [2], [3]] [0, 1] [[7]] (by decide)).1 (by decide),
   (C1_update_mismatch_amended [[1], [2], [3]] [0] [[7], [8]] (by decide)).2 (by decide)⟩

/-- C5: after a successful injection whose row count equals the id count,
reading back the table rows at the placeholder ids returns exactly the
injected rows, and re-injecting a fresh tensor overwrites the same rows with
the new values. -/
theorem C5_inject_readback_reinject (t : Table) (ids : List Nat) (e1 e2 : List Row)
    (hnd : ids.Nodup) (hb : ∀ id ∈ ids, id < t.length)
    (h1 : e1.length = ids.length) (h2 : e2.length = ids.length) :
    (update_text_encoder_subj_embs t ids e1).2 = true ∧
    (∀ k (hk : k < ids.length),
      (update_text_encoder_subj_embs t ids e1).1[ids.get ⟨k, hk⟩]? = e1[k]?) ∧
    (update_text_encoder_subj_embs (update_text_encoder_subj_embs t ids e1).1 ids e2).2 = true ∧
    (∀ k (hk : k < ids.length),
      (update_text_encoder_subj_embs
        (update_text_encoder_subj_embs t ids e1).1 ids e2).1[ids.get ⟨k, hk⟩]? = e2[k]?) := by
  have hs1 := update_subj_embs_success t ids e1 hb (by omega)
  have hb2 : ∀ id ∈ ids, id < (applyWrites t (ids.zip e1)).length := by
    intro id hid
    rw [applyWrites_length]
    exact hb id hid
  have hs2 := update_subj_embs_success (applyWrites t (ids.zip e1)) ids e2 hb2 (by omega)
  refine ⟨by rw [hs1], ?_, ?_, ?_⟩
  · intro k hk
    rw [hs1]
    exact applyWrites_readback ids e1 t hnd hb (by omega) k hk
  · rw [hs1, hs2]
  · intro k hk
    rw [hs1, hs2]
    exact applyWrites_readback ids e2 _ hnd hb2 (by omega) k hk

/-- Witness for `C5_inject_readback_reinject` at concrete inputs. -/
theorem C5_inject_readback_reinject_witness :
    (update_text_encoder_subj_embs [[0], [0], [0]] [2, 0] [[5], [6]]).2 = true ∧
    (update_text_encoder_subj_embs [[0], [0], [0]] [2, 0] [[5], [6]]).1[2]? = some [5] ∧
    (update_text_encoder_subj_embs
      (update_text_encoder_subj_embs [[0], [0], [0]] [2, 0] [[5], [6]]).1
      [2, 0] [[9], [10]]).1[0]? = some [10] :=
  have h := C5_inject_readback_reinject [[0], [0], [0]] [2, 0] [[5], [6]] [[9], [10]]
    (by decide) (by decide) (by decide) (by decide)
  ⟨h.1, h.2.1 0 (by decide), h.2.2.2 1 (by decide)⟩

/-- C9 (frame property): a successful call to the embedding injector writes
only the rows whose indices are among the placeholder token ids; every other
row of the table is unchanged. -/
theorem C9_inject_frame (t : Table) (ids : List Nat) (embs : List Row)
    (_hsucc : (update_text_encoder_subj_embs t ids embs).2 = true) :
    ∀ j, j ∉ ids → (update_text_encoder_subj_embs t ids embs).1[j]? = t[j]? := by
  intro j hj
  exact injectGo_frame embs ids t 0 j hj

/-- Witness for `C9_inject_frame` at a concrete input. -/
theorem C9_inject_frame_witness :
    (update_text_encoder_subj_embs [[1], [2], [3]] [0] [[7]]).1[2]? = some [3] :=
  C9_inject_frame [[1], [2], [3]] [0] [[7]] (by decide) 2 (by decide)

/-- The tokens allocated for encoder index `i` with `count` id vectors:
`f"{subject_string}_{i}_{j}"` for `j = 0 .. count-1`. -/
def encoderTokens (subj : String) (i count : Nat) : List String :=
  (List.range count).map (fun j => subj ++ "_" ++ toString i ++ "_" ++ toString j)

/-- All placeholder tokens from encoder index `i` on, encoder-major. -/
def allTokensFrom (subj : String) : Nat → List Nat → List String
  | _, [] => []
  | i, count :: rest => encoderTokens subj i count ++ allTokensFrom subj (i + 1) rest

/-- The token-building loop of `extend_tokenizer_and_text_encoder` (source
lines 221-232).  Python assigns `placeholder_tokens_str` inside the inner
`for j` loop, so an encoder with zero id vectors reuses the previous
encoder's joined string, and a *first* encoder with zero id vectors leaves
the variable unbound (`NameError`), modelled by the `none` result. -/
def buildLoop (subj : String) : Nat → List Nat → List String → List String →
    Option String → Option (List String × List String)
  | _, [], allToks, strs, _ => some (allToks, strs)
  | i, count :: rest, allToks, strs, lastStr =>
    let toks := encoderTokens subj i count
    match if count = 0 then lastStr else some (String.intercalate " " toks) with
    | none => none
    | some s => buildLoop subj (i + 1) rest (allToks ++ toks) (strs ++ [s]) (some s)

/-- `all_placeholder_tokens` and `placeholder_tokens_strs` as built by
`extend_tokenizer_and_text_encoder`. -/
def buildTokensAndStrs (subj : String) (nv : List Nat) :
    Option (List String × List String) :=
  buildLoop subj 0 nv [] [] none

/-- `tokenizer.add_tokens`: append each token that is not already present to
the end of the vocabulary (ids are assigned consecutively after the existing
vocabulary); return the new vocabulary and the number of tokens added. -/
def addTokens : List String → List String → List String × Nat
  | vocab, [] => (vocab, 0)
  | vocab, tk :: rest =>
    if tk ∈ vocab then addTokens vocab rest
    else
      let r := addTokens (vocab ++ [tk]) rest
      (r.1, r.2 + 1)

/-- `tokenizer.convert_tokens_to_ids` for one token: its index in the
vocabulary. -/
def idxOf : List String → String → Nat
  | [], _ => 0
  | x :: xs, tk => if x = tk then 0 else idxOf xs tk + 1

/-- The state recorded by a successful `extend_tokenizer_and_text_encoder`
call: the extended vocabulary, the token bookkeeping fields of the wrapper,
and the row count of the resized embedding table. -/
structure ExtendResult where
  vocab2 : List String
  all_placeholder_tokens : List String
  placeholder_tokens_strs : List String
  placeholder_token_ids : List Nat
  new_table_size : Nat
deriving DecidableEq

/-- `AdaFaceWrapper.extend_tokenizer_and_text_encoder` (source lines
214-250): fail when the id-vector counts sum below 1; build the placeholder
tokens; add them to the tokenizer; fail unless the count actually added
equals the count requested; record the token ids and resize the embedding
table to the new vocabulary size. -/
def extend_tokenizer_and_text_encoder (vocab : List String) (subj : String)
    (encoders_num_id_vecs : List Nat) : Option ExtendResult :=
  if encoders_num_id_vecs.sum < 1 then none
  else
    match buildTokensAndStrs subj encoders_num_id_vecs with
    | none => none
    | some (allToks, strs) =>
      let r := addTokens vocab allToks
      if r.2 ≠ encoders_num_id_vecs.sum then none
      else some ⟨r.1, allToks, strs, allToks.map (idxOf r.1), r.1.length⟩

theorem addTokens_count_le : ∀ (toks vocab : List String),
    (addTokens vocab toks).2 ≤ toks.length := by
  intro toks
  induction toks with
  | nil => intro vocab; simp [addTokens]
  | cons tk rest ih =>
    intro vocab
    rw [addTokens]
    by_cases h : tk ∈ vocab
    · simp only [h, if_pos]
      exact Nat.le_succ_of_le (ih vocab)
    · simp only [h, if_neg, not_false_iff, List.length_cons]
      exact Nat.succ_le_succ (ih (vocab ++ [tk]))

theorem addTokens_mem : ∀ (toks vocab : List String) (tk : String),
    tk ∈ vocab ∨ tk ∈ toks → tk ∈ (addTokens vocab toks).1 := by
  intro toks
  induction toks with
  | nil =>
    intro vocab tk h
    rcases h with h | h
    · simpa [addTokens] using h
    · simp at h
  | cons tk0 rest ih =>
    intro vocab tk h
    rw [addTokens]
    by_cases h0 : tk0 ∈ vocab
    · simp only [h0, if_pos]
      rcases h with h | h
      · exact ih vocab tk (Or.inl h)
      · rcases List.mem_cons.mp h with h | h
        · exact ih vocab tk (Or.inl (h ▸ h0))
        · exact ih vocab tk (Or.inr h)
    · simp only [h0, if_neg, not_false_iff]
      rcases h with h | h
      · exact ih (vocab ++ [tk0]) tk (Or.inl (List.mem_append_left _ h))
      · rcases List.mem_cons.mp h with h | h
        · exact ih (vocab ++ [tk0]) tk
            (Or.inl (List.mem_append_right _ (h ▸ List.mem_singleton_self _)))
        · exact ih (vocab ++ [tk0]) tk (Or.inr h)

theorem addTokens_length : ∀ (toks vocab : List String),
    (addTokens vocab toks).1.length = vocab.length + (addTokens vocab toks).2 := by
  intro toks
  induction toks with
  | nil => intro vocab; simp [addTokens]
  | cons tk rest ih =>
    intro vocab
    rw [addTokens]
    by_cases h : tk ∈ vocab
    · simp only [h, if_pos]
      exact ih vocab
    · simp only [h, if_neg, not_false_iff]
      rw [ih (vocab ++ [tk])]
      simp
      omega

theorem addTokens_all_mem : ∀ (toks vocab : List String),
    (∀ tk ∈ toks, tk ∈ vocab) → addTokens vocab toks = (vocab, 0) := by
  intro toks
  induction toks with
  | nil => intro vocab _; rfl
  | cons tk rest ih =>
    intro vocab h
    rw [addTokens]
    have htk : tk ∈ vocab := h tk (List.mem_cons_self _ _)
    simp only [htk, if_pos]
    exact ih vocab (fun tk' h' => h tk' (List.mem_cons_of_mem _ h'))

/-- When every requested token was actually added, the new vocabulary is the
old one with the tokens appended in order, no token pre-existed, and the
token list itself has no duplicates. -/
theorem addTokens_full : ∀ (toks vocab : List String),
    (addTokens vocab toks).2 = toks.length →
    (addTokens vocab toks).1 = vocab ++ toks ∧
      (∀ tk ∈ toks, tk ∉ vocab) ∧ toks.Nodup := by
  intro toks
  induction toks with
  | nil => intro vocab _; simp [addTokens]
  | cons tk rest ih =>
    intro vocab hcount
    by_cases h : tk ∈ vocab
    · rw [addTokens] at hcount
      simp only [h, if_pos, List.length_cons] at hcount
      have := addTokens_count_le rest vocab
      omega
    · rw [addTokens] at hcount ⊢
      simp only [h, if_neg, not_false_iff, List.length_cons] at hcount ⊢
      have hrest : (addTokens (vocab ++ [tk]) rest).2 = rest.length := by omega
      obtain ⟨hvoc, hnotin, hnd⟩ := ih (vocab ++ [tk]) hrest
      refine ⟨by rw [hvoc]; simp, ?_, ?_⟩
      · intro tk' h'
        rcases List.mem_cons.mp h' with h' | h'
        · exact h' ▸ h
        · intro hmem
          exact hnotin tk' h' (List.mem_append_left _ hmem)
      · rw [List.nodup_cons]
        refine ⟨?_, hnd⟩
        intro hmem
        exact hnotin tk hmem
          (List.mem_append_right _ (List.mem_singleton_self _))

theorem idxOf_append_not_mem : ∀ (vocab : List String) (l : List String) (tk : String),
    tk ∉ vocab → idxOf (vocab ++ l) tk = vocab.length + idxOf l tk := by
  intro vocab
  induction vocab with
  | nil => intro l tk _; simp
  | cons v vs ih =>
    intro l tk htk
    have hne : v ≠ tk := fun h => htk (h ▸ List.mem_cons_self _ _)
    rw [List.cons_append, idxOf]
    simp only [hne, if_neg, not_false_iff]
    rw [ih l tk (fun h => htk (List.mem_cons_of_mem _ h))]
    simp
    omega

theorem idxOf_cons_self (tk : String) (l : List String) : idxOf (tk :: l) tk = 0 := by
  simp [idxOf]

/-- When the freshly added tokens are distinct and none pre-existed, the
token ids obtained by lookup in the extended vocabulary are exactly the
consecutive indices after the old vocabulary, in token order. -/
theorem map_idxOf_range : ∀ (l vocab : List String), l.Nodup →
    (∀ tk ∈ l, tk ∉ vocab) →
    l.map (idxOf (vocab ++ l)) = List.range' vocab.length l.length := by
  intro l
  induction l with
  | nil => intro vocab _ _; simp
  | cons tk rest ih =>
    intro vocab hnd hdisj
    have htk : tk ∉ vocab := hdisj tk (List.mem_cons_self _ _)
    rw [List.map_cons, List.length_cons, List.range'_succ]
    refine List.cons_eq_cons.mpr ⟨?_, ?_⟩
    · rw [idxOf_append_not_mem vocab (tk :: rest) tk htk, idxOf_cons_self]
      omega
    · have hshift : vocab ++ tk :: rest = (vocab ++ [tk]) ++ rest := by simp
      rw [hshift, ih (vocab ++ [tk]) (List.nodup_cons.mp hnd).2 ?_]
      · simp
      · intro tk' h' hmem
        rcases List.mem_append.mp hmem with hmem | hmem
        · exact hdisj tk' (List.mem_cons_of_mem _ h') hmem
        · exact (List.nodup_cons.mp hnd).1
            ((List.mem_singleton.mp hmem) ▸ h')

theorem buildLoop_toks : ∀ (rest : List Nat) (subj : String) (i : Nat)
    (allToks strs : List String) (lastStr : Option String)
    (res : List String × List String),
    buildLoop subj i rest allToks strs lastStr = some res →
    res.1 = allToks ++ allTokensFrom subj i rest := by
  intro rest
  induction rest with
  | nil =>
    intro subj i allToks strs lastStr res h
    rw [buildLoop] at h
    cases h
    simp [allTokensFrom]
  | cons count rest ih =>
    intro subj i allToks strs lastStr res h
    rw [buildLoop] at h
    cases hm : (if count = 0 then lastStr
        else some (String.intercalate " " (encoderTokens subj i count))) with
    | none => rw [hm] at h; exact absurd h (by simp)
    | some s =>
      rw [hm] at h
      rw [ih subj (i + 1) _ _ _ res h, allTokensFrom]
      simp

theorem encoderTokens_length (subj : String) (i count : Nat) :
    (encoderTokens subj i count).length = count := by
  simp [encoderTokens]

theorem allTokensFrom_length : ∀ (nv : List Nat) (subj : String) (i : Nat),
    (allTokensFrom subj i nv).length = nv.sum := by
  intro nv
  induction nv with
  | nil => intro subj i; rfl
  | cons count rest ih =>
    intro subj i
    rw [allTokensFrom, List.length_append, encoderTokens_length, ih, List.sum_cons]

/-- Positional characterization of the allocated tokens: the token at global
position `(sum of the first i counts) + j` is `subj ++ "_" ++ i ++ "_" ++ j`. -/
theorem allTokensFrom_get : ∀ (nv : List Nat) (subj : String) (i0 i j : Nat),
    i < nv.length → j < nv.getD i 0 →
    (allTokensFrom subj i0 nv)[(nv.take i).sum + j]? =
      some (subj ++ "_" ++ toString (i0 + i) ++ "_" ++ toString j) := by
  intro nv
  induction nv with
  | nil => intro subj i0 i j hi _; exact absurd hi (by simp)
  | cons count rest ih =>
    intro subj i0 i j hi hj
    cases i with
    | zero =>
      simp only [List.getD_cons_zero] at hj
      rw [List.take_zero, List.sum_nil, Nat.zero_add, allTokensFrom]
      rw [List.getElem?_append_left (by rw [encoderTokens_length]; exact hj)]
      rw [encoderTokens, List.getElem?_map]
      simp [List.getElem?_range, hj]
    | succ i =>
      simp only [List.getD_cons_succ] at hj
      have hi' : i < rest.length := by simpa using Nat.lt_of_succ_lt_succ hi
      rw [List.take_succ_cons, List.sum_cons, allTokensFrom]
      rw [Nat.add_assoc, List.getElem?_append_right
        (by rw [encoderTokens_length]; omega)]
      rw [encoderTokens_length, Nat.add_sub_cancel_left]
      rw [show i0 + (i + 1) = i0 + 1 + i by omega]
      exact ih subj (i0 + 1) i j hi' hj

/-- What a successful `extend_tokenizer_and_text_encoder` call implies about
its recorded state. -/
theorem extend_success_elim (vocab : List String) (subj : String) (nv : List Nat)
    (res : ExtendResult)
    (h : extend_tokenizer_and_text_encoder vocab subj nv = some res) :
    1 ≤ nv.sum ∧
    (∃ strs, buildTokensAndStrs subj nv = some (res.all_placeholder_tokens, strs) ∧
      res.placeholder_tokens_strs = strs) ∧
    (addTokens vocab res.all_placeholder_tokens).2 = nv.sum ∧
    res.vocab2 = (addTokens vocab res.all_placeholder_tokens).1 ∧
    res.placeholder_token_ids = res.all_placeholder_tokens.map (idxOf res.vocab2) ∧
    res.new_table_size = res.vocab2.length := by
  unfold extend_tokenizer_and_text_encoder at h
  split at h
  · exact absurd h (by simp)
  · rename_i hsum
    cases hb : buildTokensAndStrs subj nv with
    | none => rw [hb] at h; exact absurd h (by simp)
    | some pair =>
      obtain ⟨toks, strs⟩ := pair
      rw [hb] at h
      simp only at h
      split at h
      · exact absurd h (by simp)
      · rename_i hcount
        rw [Option.some_inj] at h
        subst h
        dsimp only
        refine ⟨by omega, ⟨strs, hb ▸ rfl, rfl⟩, by omega, rfl, rfl, rfl⟩

/-- C3: vocabulary extension fails when the encoder specs sum to zero id
vectors; it fails whenever the count of tokens actually added differs from
the count requested; and after any successful call, a second call on the
resulting tokenizer always fails (every token is now a duplicate, so zero
tokens are added). -/
theorem C3_extend_failure_modes (vocab : List String) (subj : String) (nv : List Nat) :
    (nv.sum = 0 → extend_tokenizer_and_text_encoder vocab subj nv = none) ∧
    (∀ toks strs, buildTokensAndStrs subj nv = some (toks, strs) →
      (addTokens vocab toks).2 ≠ nv.sum →
      extend_tokenizer_and_text_encoder vocab subj nv = none) ∧
    (∀ res, extend_tokenizer_and_text_encoder vocab subj nv = some res →
      extend_tokenizer_and_text_encoder res.vocab2 subj nv = none) := by
  refine ⟨?_, ?_, ?_⟩
  · intro hz
    unfold extend_tokenizer_and_text_encoder
    rw [if_pos (by omega)]
  · intro toks strs hb hne
    unfold extend_tokenizer_and_text_encoder
    split
    · rfl
    · rw [hb]
      dsimp only
      rw [if_pos hne]
  · intro res h
    obtain ⟨hsum, ⟨strs, hb, -⟩, hcount, hvoc, -, -⟩ := extend_success_elim vocab subj nv res h
    have hall : ∀ tk ∈ res.all_placeholder_tokens, tk ∈ res.vocab2 := by
      intro tk htk
      rw [hvoc]
      exact addTokens_mem _ vocab tk (Or.inr htk)
    unfold extend_tokenizer_and_text_encoder
    rw [if_neg (by omega), hb]
    dsimp only
    rw [addTokens_all_mem _ _ hall]
    have hz : (0 : Nat) ≠ nv.sum := by omega
    simp [hz]

/-- Witness for `C3_extend_failure_modes` at concrete inputs: zero id
vectors; a pre-existing token making the added count fall short; and a
second call after a successful first call. -/
theorem C3_extend_failure_modes_witness :
    extend_tokenizer_and_text_encoder ["x"] "z" [0, 0] = none ∧
    extend_tokenizer_and_text_encoder ["hello", "z_0_0"] "z" [1] = none ∧
    extend_tokenizer_and_text_encoder ["z_0_0"] "z" [1] = none :=
  ⟨(C3_extend_failure_modes ["x"] "z" [0, 0]).1 (by decide),
   (C3_extend_failure_modes ["hello", "z_0_0"] "z" [1]).2.1 ["z_0_0"] ["z_0_0"]
     (by decide) (by decide),
   (C3_extend_failure_modes [] "z" [1]).2.2
     ⟨["z_0_0"], ["z_0_0"], ["z_0_0"], [0], 1⟩ (by decide)⟩

/-- C4: a successful vocabulary extension allocates exactly the encoder-major
ordered token list whose entry at global position `(Σ_{i' < i} nv[i']) + j`
is `subject ++ "_" ++ i ++ "_" ++ j`; the list's total length is the sum of
the id-vector counts; the embedding table is resized from the old vocabulary
size to that size plus the sum; and the assigned token ids are exactly the
consecutive new row indices, in token order. -/
theorem C4_extend_token_allocation (vocab : List String) (subj : String)
    (nv : List Nat) (res : ExtendResult)
    (h : extend_tokenizer_and_text_encoder vocab subj nv = some res) :
    res.all_placeholder_tokens.length = nv.sum ∧
    (∀ i j, i < nv.length → j < nv.getD i 0 →
      res.all_placeholder_tokens[(nv.take i).sum + j]? =
        some (subj ++ "_" ++ toString i ++ "_" ++ toString j)) ∧
    res.new_table_size = vocab.length + nv.sum ∧
    res.placeholder_token_ids = List.range' vocab.length nv.sum := by
  obtain ⟨hsum, ⟨strs, hb, -⟩, hcount, hvoc, hids, hsize⟩ :=
    extend_success_elim vocab subj nv res h
  have htoks : res.all_placeholder_tokens = allTokensFrom subj 0 nv := by
    have := buildLoop_toks nv subj 0 [] [] none (res.all_placeholder_tokens, strs) hb
    simpa using this
  have hlen : res.all_placeholder_tokens.length = nv.sum := by
    rw [htoks, allTokensFrom_length]
  have hfull := addTokens_full res.all_placeholder_tokens vocab (by omega)
  obtain ⟨hvoc2, hdisj, hnd⟩ := hfull
  refine ⟨hlen, ?_, ?_, ?_⟩
  · intro i j hi hj
    rw [htoks]
    have := allTokensFrom_get nv subj 0 i j hi hj
    rw [this]
    rw [Nat.zero_add]
  · rw [hsize, hvoc, addTokens_length, hcount]
  · rw [hids, hvoc, hvoc2, map_idxOf_range res.all_placeholder_tokens vocab hnd hdisj, hlen]

/-- Witness for `C4_extend_token_allocation` at a concrete input: old
vocabulary `["hello"]`, subject `"z"`, id-vector counts `[2, 1]`. -/
theorem C4_extend_token_allocation_witness :
    extend_tokenizer_and_text_encoder ["hello"] "z" [2, 1] =
      some ⟨["hello", "z_0_0", "z_0_1", "z_1_0"], ["z_0_0", "z_0_1", "z_1_0"],
            ["z_0_0 z_0_1", "z_1_0"], [1, 2, 3], 4⟩ ∧
    (⟨["hello", "z_0_0", "z_0_1", "z_1_0"], ["z_0_0", "z_0_1", "z_1_0"],
      ["z_0_0 z_0_1", "z_1_0"], [1, 2, 3], 4⟩ : ExtendResult).placeholder_token_ids =
      List.range' 1 3 ∧
    (⟨["hello", "z_0_0", "z_0_1", "z_1_0"], ["z_0_0", "z_0_1", "z_1_0"],
      ["z_0_0 z_0_1", "z_1_0"], [1, 2, 3], 4⟩ : ExtendResult).all_placeholder_tokens[2]? =
      some ("z" ++ "_" ++ toString 1 ++ "_" ++ toString 0) :=
  have h := C4_extend_token_allocation ["hello"] "z" [2, 1]
    ⟨["hello", "z_0_0", "z_0_1", "z_1_0"], ["z_0_0", "z_0_1", "z_1_0"],
     ["z_0_0 z_0_1", "z_1_0"], [1, 2, 3], 4⟩ (by decide)
  ⟨by decide, h.2.2.2, h.2.1 1 0 (by decide) (by decide)⟩

/-- One identity-encoder output, as returned by the
`generate_adaface_embeddings` collaborator: per-subject embedding rows plus
optional negative/teacher rows. -/
structure EncoderOutput where
  subj_embs : List Row
  teacher_neg : Option (List Row)
deriving DecidableEq

/-- `torch.zeros_like`: a tensor of the same shape, filled with zeros. -/
def zeros_like (rows : List Row) : List Row :=
  rows.map (fun r => r.map (fun _ => 0))

/-- The aggregation performed by `AdaFaceWrapper.prepare_adaface_embeddings`
(source lines 283-308): concatenate per-encoder subject embeddings in
encoder-declaration order, and concatenate the per-encoder negative/teacher
embeddings, substituting `torch.zeros_like(adaface_subj_embs)` whenever an
encoder returns `None` for its negative embeddings. -/
def prepare_adaface_embeddings (outs : List EncoderOutput) : List Row × List Row :=
  ((outs.map (fun o => o.subj_embs)).flatten,
   (outs.map (fun o =>
      match o.teacher_neg with
      | none => zeros_like o.subj_embs
      | some t => t)).flatten)

/-- The shape of a 2-d tensor modelled as a list of rows: the list of row
widths; its length is the row count. -/
def tensorShape (rows : List Row) : List Nat := rows.map List.length

theorem tensorShape_zeros_like (rows : List Row) :
    tensorShape (zeros_like rows) = tensorShape rows := by
  simp [tensorShape, zeros_like]

theorem tensorShape_append (a b : List Row) :
    tensorShape (a ++ b) = tensorShape a ++ tensorShape b :=
  List.map_append _ a b

/-- C7: when the per-backend contract holds (a non-`None` negative embedding
has the same shape as that encoder's subject embeddings), the
negative/teacher batch returned by `prepare_adaface_embeddings` has exactly
the same shape as the concatenated subject-embedding batch — in particular,
encoders returning `None` contribute a zero block of matching shape rather
than failing. -/
theorem C7_prepare_neg_shape (outs : List EncoderOutput)
    (hc : ∀ o ∈ outs, ∀ t, o.teacher_neg = some t →
      tensorShape t = tensorShape o.subj_embs) :
    tensorShape (prepare_adaface_embeddings outs).2 =
      tensorShape (prepare_adaface_embeddings outs).1 ∧
    (prepare_adaface_embeddings outs).2.length =
      (prepare_adaface_embeddings outs).1.length := by
  have hshape : tensorShape (prepare_adaface_embeddings outs).2 =
      tensorShape (prepare_adaface_embeddings outs).1 := by
    induction outs with
    | nil => rfl
    | cons o rest ih =>
      have hrest := ih (fun o' h' t ht => hc o' (List.mem_cons_of_mem _ h') t ht)
      have hhead : tensorShape (match o.teacher_neg with
          | none => zeros_like o.subj_embs
          | some t => t) = tensorShape o.subj_embs := by
        cases hx : o.teacher_neg with
        | none => exact tensorShape_zeros_like o.subj_embs
        | some t => exact hc o (List.mem_cons_self _ _) t hx
      show tensorShape (_ ++ (prepare_adaface_embeddings rest).2) =
        tensorShape (o.subj_embs ++ (prepare_adaface_embeddings rest).1)
      rw [tensorShape_append, tensorShape_append, hhead, hrest]
  refine ⟨hshape, ?_⟩
  have := congrArg List.length hshape
  simpa [tensorShape] using this

/-- Witness for `C7_prepare_neg_shape`: one encoder without and one with a
negative embedding; the zero block is substituted for the former. -/
theorem C7_prepare_neg_shape_witness :
    tensorShape (prepare_adaface_embeddings
        [⟨[[1, 2]], none⟩, ⟨[[3, 4], [5, 6]], some [[7, 8], [9, 10]]⟩]).2 =
      tensorShape (prepare_adaface_embeddings
        [⟨[[1, 2]], none⟩, ⟨[[3, 4], [5, 6]], some [[7, 8], [9, 10]]⟩]).1 ∧
    (prepare_adaface_embeddings
        [⟨[[1, 2]], none⟩, ⟨[[3, 4], [5, 6]], some [[7, 8], [9, 10]]⟩]).2 =
      [[0, 0], [7, 8], [9, 10]] :=
  ⟨(C7_prepare_neg_shape
      [⟨[[1, 2]], none⟩, ⟨[[3, 4], [5, 6]], some [[7, 8], [9, 10]]⟩]
      (by decide)).1,
   by decide⟩

/-- `str.startswith(pre)`: the characters of `pre` are a prefix of `s`. -/
def strStartsWith (s pre : String) : Bool :=
  pre.data.isPrefixOf s.data

/-- `AdaFaceWrapper.load_unet_from_file` key handling (source lines 185-212)
after the checkpoint has been read from disk.  The external
`convert_ldm_unet_checkpoint` collaborator is passed in as `convert`.  Sniff
the first key: `model.diffusion_model` prefix → rebuild keys with the empty
prefix and convert; `diffusion_model` prefix → prepend `model.` to every key
and convert; otherwise return the state dict unconverted.  An empty state
dict raises (`list(...)[0]` fails), modelled by `none`. -/
def load_unet_from_file {V : Type} (convert : List (String × V) → List (String × V))
    (unet_state_dict : List (String × V)) : Option (List (String × V)) :=
  match unet_state_dict with
  | [] => none
  | kv0 :: _ =>
    if strStartsWith kv0.1 "model.diffusion_model" then
      some (convert (unet_state_dict.map (fun kv => ("" ++ kv.1, kv.2))))
    else if strStartsWith kv0.1 "diffusion_model" then
      some (convert (unet_state_dict.map (fun kv => ("model." ++ kv.1, kv.2))))
    else some unet_state_dict

theorem map_empty_key_pref {V : Type} :
    ∀ (l : List (String × V)), l.map (fun kv => ("" ++ kv.1, kv.2)) = l := by
  intro l
  induction l with
  | nil => rfl
  | cons kv rest ih => simp [ih]

/-- C8: legacy-format detection in `load_unet_from_file` is by prefix
sniffing of the first key: a `model.diffusion_model` prefix converts the
keys with no prefix added; a `diffusion_model` prefix prepends `model.` to
every key before conversion; any other first key returns the state dict
unconverted. -/
theorem C8_unet_key_sniffing {V : Type}
    (convert : List (String × V) → List (String × V))
    (sd : List (String × V)) (kv0 : String × V) (rest : List (String × V))
    (h : sd = kv0 :: rest) :
    (strStartsWith kv0.1 "model.diffusion_model" = true →
      load_unet_from_file convert sd = some (convert sd)) ∧
    (strStartsWith kv0.1 "model.diffusion_model" = false →
      strStartsWith kv0.1 "diffusion_model" = true →
      load_unet_from_file convert sd =
        some (convert (sd.map (fun kv => ("model." ++ kv.1, kv.2))))) ∧
    (strStartsWith kv0.1 "model.diffusion_model" = false →
      strStartsWith kv0.1 "diffusion_model" = false →
      load_unet_from_file convert sd = some sd) := by
  subst h
  refine ⟨?_, ?_, ?_⟩
  · intro h1
    simp [load_unet_from_file, h1, map_empty_key_pref]
  · intro h1 h2
    simp [load_unet_from_file, h1, h2]
  · intro h1 h2
    simp [load_unet_from_file, h1, h2]

/-- Witness for `C8_unet_key_sniffing`: the three branches exercised on
concrete state dicts with `convert := List.reverse`. -/
theorem C8_unet_key_sniffing_witness :
    load_unet_from_file (fun l => l.reverse)
        [("model.diffusion_model.a", (1 : Nat)), ("k", 2)] =
      some [("k", 2), ("model.diffusion_model.a", 1)] ∧
    load_unet_from_file (fun l => l.reverse) [("diffusion_model.a", (1 : Nat))] =
      some [("model.diffusion_model.a", 1)] ∧
    load_unet_from_file (fun l => l.reverse) [("down_blocks.a", (1 : Nat))] =
      some [("down_blocks.a", 1)] :=
  ⟨(C8_unet_key_sniffing (fun l => l.reverse) _ ("model.diffusion_model.a", 1)
      [("k", 2)] rfl).1 (by decide),
   (C8_unet_key_sniffing (fun l => l.reverse) _ ("diffusion_model.a", 1)
      [] rfl).2.1 (by decide) (by decide),
   (C8_unet_key_sniffing (fun l => l.reverse) _ ("down_blocks.a", 1)
      [] rfl).2.2 (by decide) (by decide)⟩

/-- The character classes of the regex engine: which characters count as
word characters (`\w`) and as whitespace (`\s`).  Python's `re` module on
`str` patterns uses the Unicode classes; every general theorem below is
parametric in the classes, so it holds for the Unicode classes in
particular.  `asciiClasses` below is the restriction to ASCII, with which
the Unicode classes agree on ASCII characters; it is used to evaluate the
model on concrete ASCII inputs. -/
structure RegexClasses where
  isWord : Char → Bool
  isSpace : Char → Bool

/-- Python regex word characters (`\w`) restricted to ASCII: letters,
digits, underscore.  Agrees with the Unicode `\w` on ASCII characters. -/
def isWordChar (c : Char) : Bool := c.isAlphanum || c == '_'

/-- Python regex whitespace (`\s`) restricted to ASCII.  Agrees with the
Unicode `\s` on ASCII characters. -/
def isSpaceChar (c : Char) : Bool :=
  c == ' ' || c == '\t' || c == '\n' || c == '\r' || c == '\x0b' || c == '\x0c'

/-- The ASCII restriction of the engine's character classes. -/
def asciiClasses : RegexClasses := ⟨isWordChar, isSpaceChar⟩

def isWordOpt (R : RegexClasses) : Option Char → Bool
  | none => false
  | some c => R.isWord c

/-- A `\b` word boundary between an adjacent pair of characters (`none` at
either end of the string). -/
def isBoundary (R : RegexClasses) (a b : Option Char) : Bool :=
  isWordOpt R a != isWordOpt R b

/-- Match `<subject>\b,?` at the start of `s`; on success return the last
consumed character and the remaining suffix. -/
def matchSubjAt (R : RegexClasses) (subj s : List Char) : Option (Char × List Char) :=
  match subj.getLast? with
  | none => none
  | some lc =>
    if subj.isPrefixOf s then
      if isBoundary R (some lc) (s.drop subj.length).head? then
        match s.drop subj.length with
        | ',' :: rest2 => some (',', rest2)
        | _ => some (lc, s.drop subj.length)
      else none
    else none

/-- Matcher for the second substitution `\b<subject>\b,?` at the current
position; `prev` is the character before the position. -/
def matchBare (R : RegexClasses) (subj : List Char) (prev : Option Char)
    (s : List Char) : Option (Char × List Char) :=
  if isBoundary R prev s.head? then matchSubjAt R subj s else none

/-- Match `\s+<subject>\b,?` at the start of `s`, with the regex engine's
greedy-but-backtracking `\s+`. -/
def matchWSSubj (R : RegexClasses) (subj : List Char) : List Char → Option (Char × List Char)
  | [] => none
  | c :: rest =>
    if R.isSpace c then
      match matchWSSubj R subj rest with
      | some r => some r
      | none => matchSubjAt R subj rest
    else none

/-- Matcher for the first substitution `\b(a|an|the)\s+<subject>\b,?` at the
current position, with the regex engine's ordered alternation. -/
def matchArticle (R : RegexClasses) (subj : List Char) (prev : Option Char)
    (s : List Char) : Option (Char × List Char) :=
  if isBoundary R prev s.head? then
    match (if List.isPrefixOf ['a'] s then matchWSSubj R subj (s.drop 1) else none) with
    | some r => some r
    | none =>
      match (if List.isPrefixOf ['a', 'n'] s then matchWSSubj R subj (s.drop 2) else none) with
      | some r => some r
      | none =>
        if List.isPrefixOf ['t', 'h', 'e'] s then matchWSSubj R subj (s.drop 3) else none
  else none

/-- The scanning loop of `re.sub(pattern, "", prompt)`: at each position try
the matcher; on a match emit nothing and continue right after the matched
text, otherwise emit the character and advance.  `fuel` bounds the
recursion; `length + 1` suffices since every step consumes at least one
character. -/
def subScan (matcher : Option Char → List Char → Option (Char × List Char)) :
    Nat → Option Char → List Char → List Char
  | 0, _, s => s
  | _ + 1, _, [] => []
  | fuel + 1, prev, c :: rest =>
    match matcher prev (c :: rest) with
    | some (lc, rest2) => subScan matcher fuel (some lc) rest2
    | none => c :: subScan matcher fuel (some c) rest

/-- `subScan` at its canonical fuel. -/
def subScanAll (matcher : Option Char → List Char → Option (Char × List Char))
    (prev : Option Char) (s : List Char) : List Char :=
  subScan matcher (s.length + 1) prev s

/-- `re.sub(pattern, "", s)` for the patterns used by `update_prompt`. -/
def reSubRemove (matcher : Option Char → List Char → Option (Char × List Char))
    (s : String) : String :=
  String.mk (subScan matcher (s.length + 1) none s.data)

/-- The two `re.sub` passes of `AdaFaceWrapper.update_prompt` (source lines
269-270): first remove `\b(a|an|the)\s+<subject>\b,?`, then remove
`\b<subject>\b,?`. -/
def removeSubjectString (R : RegexClasses) (subj p : String) : String :=
  reSubRemove (matchBare R subj.data) (reSubRemove (matchArticle R subj.data) p)

/-- Try the article form first, then the bare form, at one position — the
ordered alternation `\b(a|an|the)\s+<subject>\b,?|\b<subject>\b,?`. -/
def matchCombined (R : RegexClasses) (subj : List Char) (prev : Option Char)
    (s : List Char) : Option (Char × List Char) :=
  match matchArticle R subj prev s with
  | some r => some r
  | none => matchBare R subj prev s

/-- Reference remover following the spec's words: one left-to-right scan
that removes exactly the word-boundary-delimited occurrences of
`(a|an|the) <placeholder>` (optional trailing comma) and of the bare
placeholder word (optional trailing comma), preferring the article form at
each position.  The claim's content is that the source's two-pass
`removeSubjectString` computes this function on every prompt. -/
def specRemove (R : RegexClasses) (subj p : String) : String :=
  reSubRemove (matchCombined R subj.data) p

/-- `AdaFaceWrapper.update_prompt` (source lines 263-281): default a missing
prompt to `""`; remove the subject word; then, per encoder in declaration
order, prepend the `arc2face` placeholder-token string or append the
`consistentID` placeholder-token string.  Evaluated at the ASCII character
classes (exact for the ASCII prompts and subjects it is applied to). -/
def update_prompt (adaface_encoder_types placeholder_tokens_strs : List String)
    (subj : String) (prompt : Option String) : String :=
  let p := removeSubjectString asciiClasses subj (prompt.getD "")
  (adaface_encoder_types.zip placeholder_tokens_strs).foldl
    (fun acc ts =>
      if ts.1 == "arc2face" then ts.2 ++ " " ++ acc
      else if ts.1 == "consistentID" then acc ++ " " ++ ts.2
      else acc) p

/-- The subject occurs at position `i` of `s` with a word boundary on each
side. -/
def standaloneAt (R : RegexClasses) (subj s : List Char) (i : Nat) : Bool :=
  subj.isPrefixOf (s.drop i) &&
  isBoundary R (s.take i).getLast? (s.drop i).head? &&
  isBoundary R subj.getLast? (s.drop (i + subj.length)).head?

/-- Whether the subject occurs anywhere in `s` as a word-boundary-delimited
(standalone) word. -/
def hasStandalone (R : RegexClasses) (subj s : List Char) : Bool :=
  (List.range s.length).any (fun i => standaloneAt R subj s i)

theorem isSpaceChar_not_word (c : Char) (h : isSpaceChar c = true) :
    isWordChar c = false := by
  simp only [isSpaceChar, Bool.or_eq_true, beq_iff_eq] at h
  rcases h with ((((h | h) | h) | h) | h) | h <;> subst h <;> decide

theorem if_some_elim {α : Type} (b : Bool) (x : Option α) (r : α)
    (h : (if b then x else none) = some r) : b = true ∧ x = some r := by
  cases b with
  | false => simp at h
  | true => exact ⟨rfl, by simpa using h⟩

/-- What a successful subject-tail match implies. -/
theorem matchSubjAt_elim (R : RegexClasses) (subj s : List Char)
    (r : Char × List Char) (h : matchSubjAt R subj s = some r) :
    subj ≠ [] ∧ subj.isPrefixOf s = true ∧
    isBoundary R subj.getLast? (s.drop subj.length).head? = true := by
  unfold matchSubjAt at h
  split at h
  · exact absurd h (by simp)
  · rename_i lc hl
    split at h
    · rename_i hp
      split at h
      · rename_i hb
        refine ⟨?_, by simpa using hp, by rw [hl]; exact hb⟩
        intro hnil
        rw [hnil] at hl
        simp at hl
      · exact absurd h (by simp)
    · exact absurd h (by simp)

/-- A successful bare-subject match at a split point exhibits a standalone
occurrence of the subject in the full string. -/
theorem matchBare_standalone (R : RegexClasses) (subj u s : List Char)
    (r : Char × List Char) (h : matchBare R subj u.getLast? s = some r) :
    hasStandalone R subj (u ++ s) = true := by
  unfold matchBare at h
  split at h
  · rename_i hb0
    obtain ⟨hne, hp, hb1⟩ := matchSubjAt_elim R subj s r h
    have hslen : subj.length ≤ s.length :=
      (List.isPrefixOf_iff_prefix.mp hp).length_le
    have hsublen : 1 ≤ subj.length := by
      cases subj with
      | nil => exact absurd rfl hne
      | cons a t => simp
    unfold hasStandalone
    rw [List.any_eq_true]
    refine ⟨u.length, ?_, ?_⟩
    · rw [List.mem_range, List.length_append]
      omega
    · unfold standaloneAt
      rw [List.drop_left, List.take_left]
      have hdrop2 : (u ++ s).drop (u.length + subj.length) = s.drop subj.length := by
        rw [← List.drop_drop, List.drop_left]
      rw [hdrop2, Bool.and_eq_true, Bool.and_eq_true]
      exact ⟨⟨hp, hb0⟩, hb1⟩
  · exact absurd h (by simp)

/-- What a successful `\s+` + subject-tail match implies: at least one
whitespace character was consumed, then the subject tail matched. -/
theorem matchWSSubj_elim (R : RegexClasses) : ∀ (s subj : List Char) (r : Char × List Char),
    matchWSSubj R subj s = some r →
    ∃ k, 1 ≤ k ∧ k ≤ s.length ∧ (∀ c ∈ s.take k, R.isSpace c = true) ∧
      matchSubjAt R subj (s.drop k) = some r := by
  intro s
  induction s with
  | nil => intro subj r h; exact absurd h (by simp [matchWSSubj])
  | cons c rest ih =>
    intro subj r h
    rw [matchWSSubj] at h
    split at h
    · rename_i hsp
      cases hrec : matchWSSubj R subj rest with
      | some r2 =>
        rw [hrec] at h
        dsimp only at h
        obtain ⟨k, hk1, hk2, hall, hm⟩ := ih subj r2 hrec
        cases h
        refine ⟨k + 1, by omega, by simp; omega, ?_, by simpa using hm⟩
        intro x hx
        rw [List.take_succ_cons] at hx
        rcases List.mem_cons.mp hx with hx | hx
        · rwa [hx]
        · exact hall x hx
      | none =>
        rw [hrec] at h
        dsimp only at h
        refine ⟨1, le_refl 1, by simp, ?_, by simpa using h⟩
        intro x hx
        simp only [List.take_succ_cons, List.take_zero, List.mem_singleton] at hx
        rwa [hx]
    · exact absurd h (by simp)

/-- What a successful article match implies: an alternative of length 1, 2 or
3 was consumed, then at least one whitespace character, then the subject
tail. -/
theorem matchArticle_elim (R : RegexClasses) (subj : List Char) (prev : Option Char)
    (s : List Char) (r : Char × List Char) (h : matchArticle R subj prev s = some r) :
    ∃ a k, (a = 1 ∨ a = 2 ∨ a = 3) ∧ a ≤ s.length ∧ 1 ≤ k ∧
      k ≤ (s.drop a).length ∧
      (∀ c ∈ (s.drop a).take k, R.isSpace c = true) ∧
      matchSubjAt R subj ((s.drop a).drop k) = some r := by
  unfold matchArticle at h
  split at h
  · cases h1 : (if List.isPrefixOf ['a'] s then matchWSSubj R subj (s.drop 1) else none) with
    | some r1 =>
      rw [h1] at h
      dsimp only at h
      obtain ⟨hp1, hw1⟩ := if_some_elim _ _ _ h1
      obtain ⟨k, hk1, hk2, hall, hm⟩ := matchWSSubj_elim R (s.drop 1) subj r1 hw1
      cases h
      have hlen : 1 ≤ s.length := by
        have := (List.isPrefixOf_iff_prefix.mp hp1).length_le
        simpa using this
      exact ⟨1, k, Or.inl rfl, hlen, hk1, hk2, hall, hm⟩
    | none =>
      rw [h1] at h
      dsimp only at h
      cases h2 : (if List.isPrefixOf ['a', 'n'] s then matchWSSubj R subj (s.drop 2) else none) with
      | some r2 =>
        rw [h2] at h
        dsimp only at h
        obtain ⟨hp2, hw2⟩ := if_some_elim _ _ _ h2
        obtain ⟨k, hk1, hk2, hall, hm⟩ := matchWSSubj_elim R (s.drop 2) subj r2 hw2
        cases h
        have hlen : 2 ≤ s.length := by
          have := (List.isPrefixOf_iff_prefix.mp hp2).length_le
          simpa using this
        exact ⟨2, k, Or.inr (Or.inl rfl), hlen, hk1, hk2, hall, hm⟩
      | none =>
        rw [h2] at h
        dsimp only at h
        obtain ⟨hp3, hw3⟩ := if_some_elim _ _ _ h
        obtain ⟨k, hk1, hk2, hall, hm⟩ := matchWSSubj_elim R (s.drop 3) subj r hw3
        have hlen : 3 ≤ s.length := by
          have := (List.isPrefixOf_iff_prefix.mp hp3).length_le
          simpa using this
        exact ⟨3, k, Or.inr (Or.inr rfl), hlen, hk1, hk2, hall, hm⟩
  · exact absurd h (by simp)

/-- A successful article match at a split point exhibits a standalone
occurrence of the subject in the full string (the subject's first character
is a word character, and the character right before it is whitespace, which
the engine's classes never count as a word character). -/
theorem matchArticle_standalone (R : RegexClasses) (subj u s : List Char)
    (r : Char × List Char)
    (hsw : ∀ c, R.isSpace c = true → R.isWord c = false)
    (hw : R.isWord (subj.headD ' ') = true)
    (h : matchArticle R subj u.getLast? s = some r) :
    hasStandalone R subj (u ++ s) = true := by
  obtain ⟨a, k, _, ha, hk1, hk2, hall, hm⟩ := matchArticle_elim R subj _ s r h
  obtain ⟨hne, hp, hb1⟩ := matchSubjAt_elim R subj _ _ hm
  have hdroplen : (s.drop a).length = s.length - a := List.length_drop ..
  have hsd : (s.drop a).drop k = s.drop (a + k) := List.drop_drop ..
  have hdlen : a + k ≤ s.length := by omega
  rw [hsd] at hp hb1
  have hsubjlen : 1 ≤ subj.length := by
    cases subj with
    | nil => exact absurd rfl hne
    | cons x t => simp
  have hsufflen : subj.length ≤ (s.drop (a + k)).length :=
    (List.isPrefixOf_iff_prefix.mp hp).length_le
  have hdlt : a + k < s.length := by
    rw [List.length_drop] at hsufflen
    omega
  -- the whitespace character right before the subject
  have hkidx : k - 1 < (s.drop a).length := by omega
  have hkidx2 : k - 1 < ((s.drop a).take k).length := by
    rw [List.length_take]
    omega
  have hctake : ((s.drop a).take k).get ⟨k - 1, hkidx2⟩ =
      (s.drop a).get ⟨k - 1, hkidx⟩ := by
    simp [List.getElem_take]
  have hcmem : (s.drop a).get ⟨k - 1, hkidx⟩ ∈ (s.drop a).take k := by
    rw [← hctake]
    exact List.get_mem _ _ _
  have hcw : R.isSpace ((s.drop a).get ⟨k - 1, hkidx⟩) = true :=
    hall _ hcmem
  -- the subject's first character
  obtain ⟨sh, st, hsubj⟩ : ∃ sh st, subj = sh :: st := by
    cases subj with
    | nil => exact absurd rfl hne
    | cons x t => exact ⟨x, t, rfl⟩
  obtain ⟨tail, htail⟩ := List.isPrefixOf_iff_prefix.mp hp
  have hhead : (s.drop (a + k)).head? = some sh := by
    rw [← htail, hsubj]
    rfl
  have hwsh : R.isWord sh = true := by
    rw [hsubj] at hw
    simpa using hw
  unfold hasStandalone
  rw [List.any_eq_true]
  refine ⟨u.length + (a + k), ?_, ?_⟩
  · rw [List.mem_range, List.length_append]
    omega
  · unfold standaloneAt
    have hdropfull : (u ++ s).drop (u.length + (a + k)) = s.drop (a + k) := by
      rw [← List.drop_drop, List.drop_left]
    have htakefull : (u ++ s).take (u.length + (a + k)) = u ++ s.take (a + k) := by
      rw [List.take_append]
    have htake_ne : s.take (a + k) ≠ [] := by
      have : (s.take (a + k)).length = a + k := List.length_take_of_le hdlen
      intro hnil
      rw [hnil] at this
      simp at this
      omega
    have hlast : (u ++ s.take (a + k)).getLast? = (s.take (a + k)).getLast? :=
      List.getLast?_append_of_ne_nil u htake_ne
    have hlast2 : (s.take (a + k)).getLast? = some ((s.drop a).get ⟨k - 1, hkidx⟩) := by
      rw [List.getLast?_eq_getElem?, List.length_take_of_le hdlen,
        List.getElem?_take]
      simp only [show a + k - 1 < a + k by omega, if_pos]
      have : (s.drop a)[k - 1]? = s[a + (k - 1)]? := List.getElem?_drop ..
      rw [show a + k - 1 = a + (k - 1) by omega, ← this]
      exact List.getElem?_eq_getElem hkidx
    have hdropsub : (u ++ s).drop (u.length + (a + k) + subj.length) =
        (s.drop (a + k)).drop subj.length := by
      rw [← List.drop_drop, ← List.drop_drop, List.drop_left]
    rw [hdropfull, htakefull, hlast, hlast2, hdropsub, Bool.and_eq_true,
      Bool.and_eq_true]
    refine ⟨⟨hp, ?_⟩, hb1⟩
    rw [hhead]
    simp only [isBoundary, isWordOpt]
    rw [hsw _ hcw, hwsh]
    rfl

/-- If the full string has no standalone occurrence of the subject, the
substitution scan is the identity. -/
theorem subScan_id (R : RegexClasses)
    (matcher : Option Char → List Char → Option (Char × List Char))
    (subj : List Char)
    (Hm : ∀ (u s' : List Char) (r : Char × List Char),
      matcher u.getLast? s' = some r → hasStandalone R subj (u ++ s') = true) :
    ∀ (fuel : Nat) (u s' : List Char),
      hasStandalone R subj (u ++ s') = false →
      subScan matcher fuel u.getLast? s' = s' := by
  intro fuel
  induction fuel with
  | zero => intro u s' _; rfl
  | succ fuel ih =>
    intro u s' hno
    cases s' with
    | nil => rfl
    | cons c rest =>
      cases hmt : matcher u.getLast? (c :: rest) with
      | some r =>
        rw [Hm u (c :: rest) r hmt] at hno
        exact absurd hno (by simp)
      | none =>
        rw [subScan, hmt]
        have hnext := ih (u ++ [c]) rest (by rw [List.append_assoc]; simpa using hno)
        rw [List.getLast?_concat] at hnext
        rw [hnext]

/-- When the prompt contains no standalone occurrence of the subject word,
both substitution passes of `update_prompt` leave it unchanged. -/
theorem removeSubjectString_id (R : RegexClasses) (subj s : String)
    (hsw : ∀ c, R.isSpace c = true → R.isWord c = false)
    (_hne : subj.data ≠ [])
    (hw : R.isWord (subj.data.headD ' ') = true)
    (h : hasStandalone R subj.data s.data = false) :
    removeSubjectString R subj s = s := by
  have hart : reSubRemove (matchArticle R subj.data) s = s := by
    unfold reSubRemove
    have hid := subScan_id R (matchArticle R subj.data) subj.data
      (fun u s' r hm => matchArticle_standalone R subj.data u s' r hsw hw hm)
      (s.length + 1) [] s.data (by simpa using h)
    rw [show ([] : List Char).getLast? = none from rfl] at hid
    rw [hid]
  have hbare : reSubRemove (matchBare R subj.data) s = s := by
    unfold reSubRemove
    have hid := subScan_id R (matchBare R subj.data) subj.data
      (fun u s' r hm => matchBare_standalone R subj.data u s' r hm)
      (s.length + 1) [] s.data (by simpa using h)
    rw [show ([] : List Char).getLast? = none from rfl] at hid
    rw [hid]
  unfold removeSubjectString
  rw [hart, hbare]

/-- A matcher that always consumes at least one character on success. -/
def Consuming (matcher : Option Char → List Char → Option (Char × List Char)) : Prop :=
  ∀ prev s lc rest2, matcher prev s = some (lc, rest2) → rest2.length < s.length

theorem matchSubjAt_consumes (R : RegexClasses) (subj s : List Char)
    (lc : Char) (rest2 : List Char) (h : matchSubjAt R subj s = some (lc, rest2)) :
    rest2.length < s.length := by
  obtain ⟨hne, hp, -⟩ := matchSubjAt_elim R subj s (lc, rest2) h
  have hsl : subj.length ≤ s.length := (List.isPrefixOf_iff_prefix.mp hp).length_le
  have h1 : 1 ≤ subj.length := by
    cases subj with
    | nil => exact absurd rfl hne
    | cons x t => simp
  unfold matchSubjAt at h
  split at h
  · exact absurd h (by simp)
  · rename_i lc' hl
    rw [if_pos hp] at h
    by_cases hb : isBoundary R (some lc') (s.drop subj.length).head? = true
    · rw [if_pos hb] at h
      split at h
      · rename_i r2 heq
        cases h
        have := congrArg List.length heq
        rw [List.length_drop] at this
        simp at this
        omega
      · cases h
        rw [List.length_drop]
        omega
    · rw [if_neg hb] at h
      exact absurd h (by simp)

theorem matchWSSubj_consumes (R : RegexClasses) (subj s : List Char)
    (lc : Char) (rest2 : List Char) (h : matchWSSubj R subj s = some (lc, rest2)) :
    rest2.length < s.length := by
  obtain ⟨k, hk1, hk2, -, hm⟩ := matchWSSubj_elim R s subj (lc, rest2) h
  have := matchSubjAt_consumes R subj _ _ _ hm
  rw [List.length_drop] at this
  omega

theorem matchArticle_consumes (R : RegexClasses) (subj : List Char)
    (prev : Option Char) (s : List Char) (lc : Char) (rest2 : List Char)
    (h : matchArticle R subj prev s = some (lc, rest2)) :
    rest2.length < s.length := by
  obtain ⟨a, k, halt, ha, hk1, hk2, -, hm⟩ := matchArticle_elim R subj prev s (lc, rest2) h
  have := matchSubjAt_consumes R subj _ _ _ hm
  rw [List.length_drop, List.length_drop] at this
  have ha1 : 1 ≤ a := by rcases halt with rfl | rfl | rfl <;> omega
  omega

theorem matchBare_consumes (R : RegexClasses) (subj : List Char)
    (prev : Option Char) (s : List Char) (lc : Char) (rest2 : List Char)
    (h : matchBare R subj prev s = some (lc, rest2)) :
    rest2.length < s.length := by
  unfold matchBare at h
  split at h
  · exact matchSubjAt_consumes R subj s lc rest2 h
  · exact absurd h (by simp)

theorem matchArticle_consuming (R : RegexClasses) (subj : List Char) :
    Consuming (matchArticle R subj) :=
  fun prev s lc rest2 h => matchArticle_consumes R subj prev s lc rest2 h

theorem matchBare_consuming (R : RegexClasses) (subj : List Char) :
    Consuming (matchBare R subj) :=
  fun prev s lc rest2 h => matchBare_consumes R subj prev s lc rest2 h

theorem matchCombined_consuming (R : RegexClasses) (subj : List Char) :
    Consuming (matchCombined R subj) := by
  intro prev s lc rest2 h
  unfold matchCombined at h
  cases hart : matchArticle R subj prev s with
  | some r =>
    rw [hart] at h
    cases h
    exact matchArticle_consumes R subj prev s lc rest2 hart
  | none =>
    rw [hart] at h
    exact matchBare_consumes R subj prev s lc rest2 h

/-- `subScan` is independent of the fuel once the fuel covers the string
length, for any matcher that consumes at least one character per match. -/
theorem subScan_fuel (matcher : Option Char → List Char → Option (Char × List Char))
    (hc : Consuming matcher) :
    ∀ (f1 f2 : Nat) (prev : Option Char) (s : List Char),
      s.length ≤ f1 → s.length ≤ f2 →
      subScan matcher f1 prev s = subScan matcher f2 prev s := by
  intro f1
  induction f1 with
  | zero =>
    intro f2 prev s h1 _
    have : s = [] := List.eq_nil_of_length_eq_zero (by omega)
    subst this
    cases f2 <;> rfl
  | succ f1 ih =>
    intro f2 prev s h1 h2
    cases s with
    | nil => cases f2 <;> rfl
    | cons c rest =>
      cases f2 with
      | zero => simp at h2
      | succ f2 =>
        rw [subScan, subScan]
        cases hmt : matcher prev (c :: rest) with
        | some r =>
          obtain ⟨lc, rest2⟩ := r
          have hlt := hc prev (c :: rest) lc rest2 hmt
          simp only [List.length_cons] at hlt h1 h2
          exact ih f2 (some lc) rest2 (by omega) (by omega)
        | none =>
          simp only [List.length_cons] at h1 h2
          rw [ih f2 (some c) rest (by omega) (by omega)]

theorem subScanAll_match (matcher : Option Char → List Char → Option (Char × List Char))
    (hc : Consuming matcher) (prev : Option Char) (c : Char) (rest : List Char)
    (lc : Char) (rest2 : List Char) (h : matcher prev (c :: rest) = some (lc, rest2)) :
    subScanAll matcher prev (c :: rest) = subScanAll matcher (some lc) rest2 := by
  unfold subScanAll
  have hlt := hc prev (c :: rest) lc rest2 h
  rw [subScan, h]
  apply subScan_fuel matcher hc
  · simp only [List.length_cons] at hlt
    simp only [List.length_cons]
    omega
  · omega

theorem subScanAll_nomatch (matcher : Option Char → List Char → Option (Char × List Char))
    (prev : Option Char) (c : Char) (rest : List Char)
    (h : matcher prev (c :: rest) = none) :
    subScanAll matcher prev (c :: rest) = c :: subScanAll matcher (some c) rest := by
  unfold subScanAll
  rw [subScan, h]
  rfl

theorem isPrefixOf_single_iff (c0 : Char) (s : List Char) :
    List.isPrefixOf [c0] s = true ↔ ∃ tail, s = c0 :: tail := by
  cases s with
  | nil => simp [List.isPrefixOf]
  | cons y ys =>
    simp only [List.isPrefixOf, Bool.and_true, beq_iff_eq]
    constructor
    · intro h
      exact ⟨ys, by rw [h]⟩
    · rintro ⟨tail, ht⟩
      cases ht
      rfl

theorem head?_of_isPrefixOf_cons (x : Char) (xs s : List Char)
    (h : List.isPrefixOf (x :: xs) s = true) : s.head? = some x := by
  cases s with
  | nil => simp [List.isPrefixOf] at h
  | cons y ys =>
    have hxy : x = y := by
      by_cases hxy : x = y
      · exact hxy
      · simp [List.isPrefixOf, hxy] at h
    rw [hxy]
    rfl

/-- Reduction of the subject-tail matcher for a one-character subject. -/
theorem matchSubjAt_single_eq (R : RegexClasses) (c0 c : Char) (tail : List Char) :
    matchSubjAt R [c0] (c :: tail) =
      if c0 = c then
        if isBoundary R (some c0) tail.head? then
          match tail with
          | ',' :: r2 => some (',', r2)
          | _ => some (c0, tail)
        else none
      else none := by
  unfold matchSubjAt
  simp only [List.getLast?_singleton]
  by_cases hc : c0 = c
  · subst hc
    rw [if_pos rfl]
    have hpre : List.isPrefixOf [c0] (c0 :: tail) = true := by
      simp [List.isPrefixOf]
    rw [if_pos hpre]
    simp
  · rw [if_neg hc]
    have hpre : List.isPrefixOf [c0] (c :: tail) = false := by
      simp [List.isPrefixOf, hc]
    rw [if_neg (by simp [hpre])]

theorem matchSubjAt_single_ne (R : RegexClasses) (c0 c : Char) (tail : List Char)
    (hne : c0 ≠ c) : matchSubjAt R [c0] (c :: tail) = none := by
  rw [matchSubjAt_single_eq, if_neg hne]

/-- What a successful subject-tail match says about its returned last
character: either the optional comma was consumed, or the last character is
the subject's last character with a word boundary right after the match. -/
theorem matchSubjAt_last_info (R : RegexClasses) (subj s : List Char) (lc : Char)
    (rest2 : List Char) (h : matchSubjAt R subj s = some (lc, rest2)) :
    lc = ',' ∨ (subj.getLast? = some lc ∧ isBoundary R (some lc) rest2.head? = true) := by
  obtain ⟨-, hp, -⟩ := matchSubjAt_elim R subj s (lc, rest2) h
  unfold matchSubjAt at h
  split at h
  · exact absurd h (by simp)
  · rename_i lc' hl
    rw [if_pos hp] at h
    by_cases hb : isBoundary R (some lc') (s.drop subj.length).head? = true
    · rw [if_pos hb] at h
      split at h
      · cases h
        left
        rfl
      · cases h
        right
        exact ⟨hl, hb⟩
    · rw [if_neg hb] at h
      exact absurd h (by simp)

/-- The article matcher never matches right after a word character: the `\b`
before the article fails when the next character is a word character (the
articles start with the word characters `a`/`t`), and otherwise the article
prefix itself fails. -/
theorem matchArticle_none_of_word (R : RegexClasses) (subj : List Char)
    (prev : Option Char) (s : List Char)
    (hwa : R.isWord 'a' = true) (hwt : R.isWord 't' = true)
    (hprev : isWordOpt R prev = true) :
    matchArticle R subj prev s = none := by
  unfold matchArticle
  split
  · rename_i hbd
    have hh : isWordOpt R s.head? = false := by
      unfold isBoundary at hbd
      rw [hprev] at hbd
      cases hx : isWordOpt R s.head?
      · rfl
      · rw [hx] at hbd
        simp at hbd
    have h1 : List.isPrefixOf ['a'] s = false := by
      cases hx : List.isPrefixOf ['a'] s
      · rfl
      · rw [head?_of_isPrefixOf_cons 'a' [] s hx] at hh
        simp [isWordOpt, hwa] at hh
    have h2 : List.isPrefixOf ['a', 'n'] s = false := by
      cases hx : List.isPrefixOf ['a', 'n'] s
      · rfl
      · rw [head?_of_isPrefixOf_cons 'a' ['n'] s hx] at hh
        simp [isWordOpt, hwa] at hh
    have h3 : List.isPrefixOf ['t', 'h', 'e'] s = false := by
      cases hx : List.isPrefixOf ['t', 'h', 'e'] s
      · rfl
      · rw [head?_of_isPrefixOf_cons 't' ['h', 'e'] s hx] at hh
        simp [isWordOpt, hwt] at hh
    simp [h1, h2, h3]
  · rfl

/-- What a successful article match says about the surrounding characters:
the previous character is not a word character, the first character is (an
article begins the match), and the match ends at a comma or at the subject's
last character followed by a word boundary. -/
theorem matchArticle_some_info (R : RegexClasses) (subj : List Char)
    (prev : Option Char) (s : List Char) (lc : Char) (rest2 : List Char)
    (hwa : R.isWord 'a' = true) (hwt : R.isWord 't' = true)
    (h : matchArticle R subj prev s = some (lc, rest2)) :
    isWordOpt R prev = false ∧ isWordOpt R s.head? = true ∧
      (lc = ',' ∨ (subj.getLast? = some lc ∧ isBoundary R (some lc) rest2.head? = true)) := by
  have hlast : lc = ',' ∨ (subj.getLast? = some lc ∧ isBoundary R (some lc) rest2.head? = true) := by
    obtain ⟨a, k, -, -, -, -, -, hm⟩ := matchArticle_elim R subj prev s (lc, rest2) h
    exact matchSubjAt_last_info R subj _ lc rest2 hm
  unfold matchArticle at h
  split at h
  · rename_i hbd
    have hhead : isWordOpt R s.head? = true := by
      cases h1 : (if List.isPrefixOf ['a'] s then matchWSSubj R subj (s.drop 1) else none) with
      | some r1 =>
        obtain ⟨hp1, -⟩ := if_some_elim _ _ _ h1
        rw [head?_of_isPrefixOf_cons 'a' [] s hp1]
        simpa [isWordOpt] using hwa
      | none =>
        rw [h1] at h
        dsimp only at h
        cases h2 : (if List.isPrefixOf ['a', 'n'] s then matchWSSubj R subj (s.drop 2) else none) with
        | some r2 =>
          obtain ⟨hp2, -⟩ := if_some_elim _ _ _ h2
          rw [head?_of_isPrefixOf_cons 'a' ['n'] s hp2]
          simpa [isWordOpt] using hwa
        | none =>
          rw [h2] at h
          dsimp only at h
          obtain ⟨hp3, -⟩ := if_some_elim _ _ _ h
          rw [head?_of_isPrefixOf_cons 't' ['h', 'e'] s hp3]
          simpa [isWordOpt] using hwt
    refine ⟨?_, hhead, hlast⟩
    unfold isBoundary at hbd
    rw [hhead] at hbd
    cases hx : isWordOpt R prev
    · rfl
    · rw [hx] at hbd
      simp at hbd
  · exact absurd h (by simp)

/-- The bare matcher succeeds (without a comma) when the boundaries hold and
no comma follows the subject. -/
theorem matchBare_single_build (R : RegexClasses) (c0 : Char)
    (prev : Option Char) (tail : List Char)
    (h1 : isBoundary R prev (some c0) = true)
    (h2 : isBoundary R (some c0) tail.head? = true)
    (h3 : tail.head? ≠ some ',') :
    matchBare R [c0] prev (c0 :: tail) = some (c0, tail) := by
  unfold matchBare
  simp only [List.head?_cons]
  rw [if_pos h1, matchSubjAt_single_eq, if_pos rfl, if_pos h2]
  split
  · simp at h3
  · rfl

/-- The bare matcher consumes the trailing comma when one follows the
subject (the greedy `,?`). -/
theorem matchBare_single_build_comma (R : RegexClasses) (c0 : Char)
    (prev : Option Char) (r2 : List Char)
    (h1 : isBoundary R prev (some c0) = true)
    (h2 : isBoundary R (some c0) (some ',') = true) :
    matchBare R [c0] prev (c0 :: ',' :: r2) = some (',', r2) := by
  unfold matchBare
  simp only [List.head?_cons]
  rw [if_pos h1, matchSubjAt_single_eq, if_pos rfl, if_pos (by simpa using h2)]
  rfl

/-- The bare matcher fails at a subject-headed position when either
boundary fails. -/
theorem matchBare_single_build_none (R : RegexClasses) (c0 : Char)
    (prev : Option Char) (tail : List Char)
    (h : isBoundary R prev (some c0) = false ∨
      isBoundary R (some c0) tail.head? = false) :
    matchBare R [c0] prev (c0 :: tail) = none := by
  unfold matchBare
  rcases h with h | h
  · rw [if_neg (by simp [h])]
  · split
    · rw [matchSubjAt_single_eq, if_pos rfl, if_neg (by simp [h])]
    · rfl

/-- The bare matcher fails when the position does not start with the
subject character. -/
theorem matchBare_single_ne (R : RegexClasses) (c0 c : Char)
    (prev : Option Char) (tail : List Char) (hne : c0 ≠ c) :
    matchBare R [c0] prev (c :: tail) = none := by
  unfold matchBare
  split
  · exact matchSubjAt_single_ne R c0 c tail hne
  · rfl

/-- Full structure of a successful bare match for a one-character subject:
the position starts with the subject, both boundaries hold, and the match
either consumed a trailing comma or stopped right after the subject. -/
theorem matchBare_single_some (R : RegexClasses) (c0 : Char)
    (prev : Option Char) (s : List Char) (lc : Char) (rest2 : List Char)
    (h : matchBare R [c0] prev s = some (lc, rest2)) :
    ∃ tail, s = c0 :: tail ∧ isBoundary R prev (some c0) = true ∧
      isBoundary R (some c0) tail.head? = true ∧
      ((tail.head? = some ',' ∧ lc = ',' ∧ tail = ',' :: rest2) ∨
       (tail.head? ≠ some ',' ∧ lc = c0 ∧ rest2 = tail)) := by
  unfold matchBare at h
  split at h
  · rename_i hbd
    obtain ⟨-, hp, -⟩ := matchSubjAt_elim R [c0] s (lc, rest2) h
    obtain ⟨tail, rfl⟩ := (isPrefixOf_single_iff c0 s).mp hp
    rw [matchSubjAt_single_eq, if_pos rfl] at h
    by_cases hb2 : isBoundary R (some c0) tail.head? = true
    · rw [if_pos hb2] at h
      refine ⟨tail, rfl, by simpa using hbd, hb2, ?_⟩
      split at h
      · rename_i r2 heq
        cases h
        left
        exact ⟨rfl, rfl, rfl⟩
      · rename_i hnc
        cases h
        right
        refine ⟨?_, rfl, rfl⟩
        intro hh
        cases hcase : rest2 with
        | nil =>
          rw [hcase] at hh
          simp at hh
        | cons d r =>
          rw [hcase] at hh
          simp only [List.head?_cons, Option.some_inj] at hh
          exact hnc r (by rw [hcase, hh])
    · rw [if_neg hb2] at h
      exact absurd h (by simp)
  · exact absurd h (by simp)

/-- The bare matcher fails at a subject-headed position only when a
boundary fails. -/
theorem matchBare_single_none (R : RegexClasses) (c0 : Char)
    (prev : Option Char) (tail : List Char)
    (h : matchBare R [c0] prev (c0 :: tail) = none) :
    isBoundary R prev (some c0) = false ∨
      isBoundary R (some c0) tail.head? = false := by
  by_cases h1 : isBoundary R prev (some c0) = true
  · by_cases h2 : isBoundary R (some c0) tail.head? = true
    · exfalso
      by_cases h3 : tail.head? = some ','
      · obtain ⟨r2, hr2⟩ : ∃ r2, tail = ',' :: r2 := by
          cases tail with
          | nil => simp at h3
          | cons d r =>
            simp only [List.head?_cons, Option.some_inj] at h3
            exact ⟨r, by rw [h3]⟩
        subst hr2
        have h2' : isBoundary R (some c0) (some ',') = true := by simpa using h2
        rw [matchBare_single_build_comma R c0 prev r2 h1 h2'] at h
        simp at h
      · rw [matchBare_single_build R c0 prev tail h1 h2 h3] at h
        simp at h
    · right
      cases hx : isBoundary R (some c0) tail.head?
      · rfl
      · exact absurd hx h2
  · left
    cases hx : isBoundary R prev (some c0)
    · rfl
    · exact absurd hx h1

/-- The source's two substitution passes (article pass, then bare pass)
compute the same function as the single combined pass, for a one-character
subject that is a word character.  The combined scan and the article pass
see the same text, and wherever they disagree on the previous character
(just after a removed chunk) the character there cannot start a match, so
the bare pass over the article pass's output removes exactly the bare
occurrences the combined scan removes. -/
theorem twoPass_eq_onePass (R : RegexClasses) (c0 : Char)
    (hw : R.isWord c0 = true) (hwa : R.isWord 'a' = true)
    (hwt : R.isWord 't' = true) (hwc : R.isWord ',' = false) :
    ∀ (n : Nat) (s : List Char) (pA pB : Option Char), s.length ≤ n →
      (isWordOpt R pA = isWordOpt R pB ∨ isWordOpt R s.head? = false) →
      subScanAll (matchBare R [c0]) pB (subScanAll (matchArticle R [c0]) pA s) =
        subScanAll (matchCombined R [c0]) pA s := by
  intro n
  induction n with
  | zero =>
    intro s pA pB hlen _
    have hs : s = [] := List.eq_nil_of_length_eq_zero (by omega)
    subst hs
    rfl
  | succ n ih =>
    intro s pA pB hlen hinv
    cases s with
    | nil => rfl
    | cons c rest =>
      cases hart : matchArticle R [c0] pA (c :: rest) with
      | some r =>
        obtain ⟨lc, rest2⟩ := r
        have hcomb : matchCombined R [c0] pA (c :: rest) = some (lc, rest2) := by
          unfold matchCombined
          rw [hart]
        have hcons := matchArticle_consumes R [c0] pA _ _ _ hart
        obtain ⟨hpA, hheadw, hlc⟩ :=
          matchArticle_some_info R [c0] pA _ lc rest2 hwa hwt hart
        rw [subScanAll_match _ (matchArticle_consuming R [c0]) pA c rest lc rest2 hart,
            subScanAll_match _ (matchCombined_consuming R [c0]) pA c rest lc rest2 hcomb]
        apply ih rest2 (some lc) pB ?_ ?_
        · simp only [List.length_cons] at hcons hlen
          omega
        · rcases hlc with hlc | ⟨hgl, hb2⟩
          · subst hlc
            left
            have hpB : isWordOpt R pB = false := by
              rcases hinv with hinv | hinv
              · rw [← hinv, hpA]
              · rw [hheadw] at hinv
                simp at hinv
            rw [hpB]
            simp [isWordOpt, hwc]
          · right
            have hlc0 : lc = c0 := by
              simp only [List.getLast?_singleton, Option.some_inj] at hgl
              exact hgl.symm
            rw [hlc0] at hb2
            unfold isBoundary at hb2
            rw [show isWordOpt R (some c0) = true by simp [isWordOpt, hw]] at hb2
            cases hx : isWordOpt R rest2.head?
            · rfl
            · rw [hx] at hb2
              simp at hb2
      | none =>
        cases hbare : matchBare R [c0] pA (c :: rest) with
        | some r =>
          obtain ⟨lc, rest2⟩ := r
          have hcomb : matchCombined R [c0] pA (c :: rest) = some (lc, rest2) := by
            unfold matchCombined
            rw [hart]
            exact hbare
          obtain ⟨tail, hseq, hbd0, hbb, hstruct⟩ :=
            matchBare_single_some R c0 pA _ lc rest2 hbare
          injection hseq with hc htl
          subst hc
          subst htl
          have hpAw : isWordOpt R pA = false := by
            unfold isBoundary at hbd0
            rw [show isWordOpt R (some c) = true by simp [isWordOpt, hw]] at hbd0
            cases hx : isWordOpt R pA
            · rfl
            · rw [hx] at hbd0
              simp at hbd0
          have hpBw : isWordOpt R pB = false := by
            rcases hinv with hinv | hinv
            · rw [← hinv, hpAw]
            · rw [show (c :: rest).head? = some c from rfl] at hinv
              rw [show isWordOpt R (some c) = true by simp [isWordOpt, hw]] at hinv
              simp at hinv
          have hbdB : isBoundary R pB (some c) = true := by
            unfold isBoundary
            rw [hpBw, show isWordOpt R (some c) = true by simp [isWordOpt, hw]]
            rfl
          rw [subScanAll_nomatch _ pA c rest hart]
          rcases hstruct with ⟨hcomma, hlc, htail⟩ | ⟨hnc, hlc, hr2⟩
          · subst hlc
            subst htail
            rw [subScanAll_nomatch _ (some c) ',' rest2
              (matchArticle_none_of_word R [c] (some c) (',' :: rest2) hwa hwt
                (by simp [isWordOpt, hw]))]
            rw [subScanAll_match _ (matchBare_consuming R [c]) pB c
              (',' :: subScanAll (matchArticle R [c]) (some ',') rest2) ',' _
              (matchBare_single_build_comma R c pB _ hbdB
                (by simp [isBoundary, isWordOpt, hw, hwc]))]
            rw [subScanAll_match _ (matchCombined_consuming R [c]) pA c
              (',' :: rest2) ',' rest2 hcomb]
            apply ih rest2 (some ',') (some ',') ?_ (Or.inl rfl)
            simp only [List.length_cons] at hlen
            omega
          · rw [hlc, hr2] at hcomb
            have hOhead : (subScanAll (matchArticle R [c]) (some c) rest).head? =
                rest.head? := by
              cases rest with
              | nil => rfl
              | cons d r2 =>
                rw [subScanAll_nomatch _ (some c) d r2
                  (matchArticle_none_of_word R [c] (some c) (d :: r2) hwa hwt
                    (by simp [isWordOpt, hw]))]
                rfl
            rw [subScanAll_match _ (matchBare_consuming R [c]) pB c
              (subScanAll (matchArticle R [c]) (some c) rest) c _
              (matchBare_single_build R c pB _ hbdB
                (by rw [hOhead]; exact hbb) (by rw [hOhead]; exact hnc))]
            rw [subScanAll_match _ (matchCombined_consuming R [c]) pA c rest c rest hcomb]
            apply ih rest (some c) (some c) ?_ (Or.inl rfl)
            simp only [List.length_cons] at hlen
            omega
        | none =>
          have hcomb : matchCombined R [c0] pA (c :: rest) = none := by
            unfold matchCombined
            rw [hart]
            exact hbare
          rw [subScanAll_nomatch _ pA c rest hart,
              subScanAll_nomatch _ pA c rest hcomb]
          have hfail2 : matchBare R [c0] pB
              (c :: subScanAll (matchArticle R [c0]) (some c) rest) = none := by
            by_cases hc : c0 = c
            · subst hc
              rcases matchBare_single_none R c0 pA rest hbare with hfb | hfb
              · have hpAw : isWordOpt R pA = true := by
                  unfold isBoundary at hfb
                  rw [show isWordOpt R (some c0) = true by simp [isWordOpt, hw]] at hfb
                  cases hx : isWordOpt R pA
                  · rw [hx] at hfb
                    simp at hfb
                  · rfl
                have hpBw : isWordOpt R pB = true := by
                  rcases hinv with hinv | hinv
                  · rw [← hinv, hpAw]
                  · rw [show (c0 :: rest).head? = some c0 from rfl] at hinv
                    rw [show isWordOpt R (some c0) = true by simp [isWordOpt, hw]] at hinv
                    simp at hinv
                apply matchBare_single_build_none
                left
                unfold isBoundary
                rw [hpBw, show isWordOpt R (some c0) = true by simp [isWordOpt, hw]]
                rfl
              · have hOhead : (subScanAll (matchArticle R [c0]) (some c0) rest).head? =
                    rest.head? := by
                  cases rest with
                  | nil => rfl
                  | cons d r2 =>
                    rw [subScanAll_nomatch _ (some c0) d r2
                      (matchArticle_none_of_word R [c0] (some c0) (d :: r2) hwa hwt
                        (by simp [isWordOpt, hw]))]
                    rfl
                apply matchBare_single_build_none
                right
                rw [hOhead]
                exact hfb
            · exact matchBare_single_ne R c0 c pB _ hc
          rw [subScanAll_nomatch _ pB c _ hfail2]
          have hrec := ih rest (some c) (some c)
            (by simp only [List.length_cons] at hlen; omega) (Or.inl rfl)
          rw [hrec]

/-- String-level form of the equivalence: for a one-character subject that
is a word character, the source's two `re.sub` passes equal the spec's
single combined removal. -/
theorem removeSubjectString_eq_specRemove (R : RegexClasses) (c0 : Char)
    (hw : R.isWord c0 = true) (hwa : R.isWord 'a' = true)
    (hwt : R.isWord 't' = true) (hwc : R.isWord ',' = false) (p : String) :
    removeSubjectString R (String.mk [c0]) p = specRemove R (String.mk [c0]) p := by
  unfold removeSubjectString specRemove reSubRemove
  congr 1
  show subScanAll (matchBare R [c0]) none (subScanAll (matchArticle R [c0]) none p.data) =
    subScanAll (matchCombined R [c0]) none p.data
  exact twoPass_eq_onePass R c0 hw hwa hwt hwc p.data.length p.data none none
    le_rfl (Or.inl rfl)

/-- Split a string into its whitespace-separated words (an observation
function used to state prompt structure up to whitespace). -/
def wordsAux : List Char → List Char → List String
  | [], acc => if acc.isEmpty then [] else [String.mk acc.reverse]
  | c :: rest, acc =>
    if c == ' ' then
      if acc.isEmpty then wordsAux rest []
      else String.mk acc.reverse :: wordsAux rest []
    else wordsAux rest (c :: acc)

def words (s : String) : List String := wordsAux s.data []

/-- C2: with encoders `[arc2face, consistentID]` declared with 16 and 4 id
vectors, subject placeholder `"z"`, and raw prompt `"a z in the jungle"`,
the composed prompt is exactly the 16 arc2face placeholder tokens at the
front (in order), the literal text `in the jungle`, and the 4 consistentID
placeholder tokens at the end (in order); splitting on whitespace exhibits
the token order. -/
theorem C2_compose_end_to_end :
    buildTokensAndStrs "z" [16, 4] =
      some (["z_0_0", "z_0_1", "z_0_2", "z_0_3", "z_0_4", "z_0_5", "z_0_6",
             "z_0_7", "z_0_8", "z_0_9", "z_0_10", "z_0_11", "z_0_12", "z_0_13",
             "z_0_14", "z_0_15", "z_1_0", "z_1_1", "z_1_2", "z_1_3"],
            ["z_0_0 z_0_1 z_0_2 z_0_3 z_0_4 z_0_5 z_0_6 z_0_7 z_0_8 z_0_9 z_0_10 z_0_11 z_0_12 z_0_13 z_0_14 z_0_15",
             "z_1_0 z_1_1 z_1_2 z_1_3"]) ∧
    update_prompt ["arc2face", "consistentID"]
        ["z_0_0 z_0_1 z_0_2 z_0_3 z_0_4 z_0_5 z_0_6 z_0_7 z_0_8 z_0_9 z_0_10 z_0_11 z_0_12 z_0_13 z_0_14 z_0_15",
         "z_1_0 z_1_1 z_1_2 z_1_3"] "z" (some "a z in the jungle") =
      "z_0_0 z_0_1 z_0_2 z_0_3 z_0_4 z_0_5 z_0_6 z_0_7 z_0_8 z_0_9 z_0_10 z_0_11 z_0_12 z_0_13 z_0_14 z_0_15  in the jungle z_1_0 z_1_1 z_1_2 z_1_3" ∧
    words "z_0_0 z_0_1 z_0_2 z_0_3 z_0_4 z_0_5 z_0_6 z_0_7 z_0_8 z_0_9 z_0_10 z_0_11 z_0_12 z_0_13 z_0_14 z_0_15  in the jungle z_1_0 z_1_1 z_1_2 z_1_3" =
      ["z_0_0", "z_0_1", "z_0_2", "z_0_3", "z_0_4", "z_0_5", "z_0_6", "z_0_7",
       "z_0_8", "z_0_9", "z_0_10", "z_0_11", "z_0_12", "z_0_13", "z_0_14",
       "z_0_15", "in", "the", "jungle", "z_1_0", "z_1_1", "z_1_2", "z_1_3"] := by
  refine ⟨by decide, by decide, by decide⟩

/-- C6: `update_prompt`'s subject removal removes exactly the
word-boundary-delimited occurrences of `a/an/the <placeholder>` and of the
bare placeholder word, each with an optional trailing comma, and nothing
else.  (1) `update_prompt` with no encoders is exactly the removal step;
(2) for every prompt and every one-character word-character subject, under
any character classes for `\w`/`\s` (covering Python's Unicode classes),
the source's two passes compute the reference one-scan remover
`specRemove`, which removes exactly those occurrences; (3) under any
classes, a prompt with no standalone occurrence of the subject is left
unchanged (nothing else is removed, for subjects of any length); then
concrete ASCII evaluations: the article, article-comma, bare, and
bare-comma forms are removed, a mixed prompt with both an article
occurrence and an embedded `z` keeps the embedded `z` (and `specRemove`
agrees), and a prompt where `z` occurs only inside longer words is
untouched. -/
theorem C6_removal_exact :
    (∀ (subj p : String), update_prompt [] [] subj (some p) =
        removeSubjectString asciiClasses subj p)
    ∧ (∀ (R : RegexClasses) (c0 : Char) (p : String),
        R.isWord c0 = true → R.isWord 'a' = true → R.isWord 't' = true →
        R.isWord ',' = false →
        removeSubjectString R (String.mk [c0]) p = specRemove R (String.mk [c0]) p)
    ∧ (∀ (R : RegexClasses) (subj p : String),
        (∀ c, R.isSpace c = true → R.isWord c = false) →
        subj.data ≠ [] → R.isWord (subj.data.headD ' ') = true →
        hasStandalone R subj.data p.data = false →
        removeSubjectString R subj p = p)
    ∧ update_prompt [] [] "z" (some "a z in jazz") = " in jazz"
    ∧ specRemove asciiClasses "z" "a z in jazz" = " in jazz"
    ∧ update_prompt [] [] "z" (some "portrait of a z in the park") =
        "portrait of  in the park"
    ∧ update_prompt [] [] "z" (some "an z, smiling") = " smiling"
    ∧ update_prompt [] [] "z" (some "the z, at night") = " at night"
    ∧ update_prompt [] [] "z" (some "z wearing a hat") = " wearing a hat"
    ∧ update_prompt [] [] "z" (some "z, close-up") = " close-up"
    ∧ update_prompt [] [] "z" (some "jazz and zebra-free zone z0 zz") =
        "jazz and zebra-free zone z0 zz" := by
  refine ⟨fun subj p => rfl, ?_, ?_, ?_, ?_, ?_, ?_, ?_, ?_, ?_, ?_⟩
  · intro R c0 p hw hwa hwt hwc
    exact removeSubjectString_eq_specRemove R c0 hw hwa hwt hwc p
  · intro R subj p hsw hne hw h
    exact removeSubjectString_id R subj p hsw hne hw h
  all_goals decide

theorem C6_removal_exact_witness :
    removeSubjectString asciiClasses (String.mk ['z']) "a z in jazz" =
        specRemove asciiClasses (String.mk ['z']) "a z in jazz"
    ∧ removeSubjectString asciiClasses "z" "jazz band" = "jazz band" :=
  ⟨C6_removal_exact.2.1 asciiClasses 'z' "a z in jazz"
      (by decide) (by decide) (by decide) (by decide),
   C6_removal_exact.2.2.1 asciiClasses "z" "jazz band"
      (fun c h => isSpaceChar_not_word c h) (by decide) (by decide) (by decide)⟩

/-- The external diffusion-pipeline collaborator: the prompt-encoding entry
points used by each backend family, and the tensor operations `forward`
applies, abstracted over the embedding types. -/
structure PipelineModel (E P T : Type) where
  encodeSD : String → String → E × E
  encodeSD3 : String → String → String → E × E × P × P
  encodeFlux : String → String → E × P
  repE : E → Nat → E
  blendNeg : E → T → E

/-- The tuple returned by `AdaFaceWrapper.encode_prompt`. -/
structure EncOut (E P : Type) where
  prompt_embeds : E
  negative_prompt_embeds : Option E
  pooled_prompt_embeds : Option P
  negative_pooled_prompt_embeds : Option P

/-- The filler-padded long-context prompt `prompt + "".join([", "] * 256)`. -/
def prompt_t5_pad (prompt : String) : String :=
  prompt ++ String.join (List.replicate 256 ", ")

/-- `AdaFaceWrapper.encode_prompt` (source lines 310-370): default the
negative prompt, rewrite the prompt with `update_prompt`, then dispatch on
`pipeline_name`: `text2img3` passes the negative prompt and returns all four
streams; `flux` calls the pipeline *without* a negative prompt and returns
`none` for both negative streams; the remaining (SD) pipelines return the
two classifier-free-guidance streams and no pooled streams.
(`apply_neg_img_prompt` is set to `False` in the constructor and never
changed, so the negative-image-prompt overwrite at line 367 is dead code.) -/
def encode_prompt {E P T : Type} (M : PipelineModel E P T) (pipeline_name : String)
    (encTypes strs : List String) (subj : String) (default_negative_prompt : String)
    (prompt : String) (negative_prompt : Option String) : EncOut E P :=
  let neg := negative_prompt.getD default_negative_prompt
  let p := update_prompt encTypes strs subj (some prompt)
  if pipeline_name == "text2img3" then
    let r := M.encodeSD3 p (prompt_t5_pad p) neg
    ⟨r.1, some r.2.1, some r.2.2.1, some r.2.2.2⟩
  else if pipeline_name == "flux" then
    let r := M.encodeFlux p (prompt_t5_pad p)
    ⟨r.1, none, some r.2, none⟩
  else
    let r := M.encodeSD p neg
    ⟨r.1, some r.2, none, none⟩

/-- One sampler invocation: the conditioning tensors and arguments that
`AdaFaceWrapper.forward` hands to the underlying diffusion pipeline. -/
structure SamplerCall (E P N G : Type) where
  image : Option N
  prompt_embeds : E
  negative_prompt_embeds : Option E
  pooled_prompt_embeds : Option P
  negative_pooled_prompt_embeds : Option P
  num_inference_steps : Nat
  guidance_scale : G
  strength : Option G

/-- `AdaFaceWrapper.forward` (source lines 373-428): encode the prompts,
replicate the embeddings across the output batch, overwrite the tail of the
negative embeddings with the teacher negative-id embeddings when present,
and make the backend-specific sampler call: `text2img3` with both pooled
streams replicated, `flux` with 4 inference steps and no negative
conditioning at all, and the SD branches with the noise image and the
image-to-image strength. -/
def forward {E P T N G : Type} (M : PipelineModel E P T) (repP : P → Nat → P)
    (pipeline_name : String) (encTypes strs : List String) (subj : String)
    (default_negative_prompt : String) (num_inference_steps : Nat)
    (noise : N) (prompt : String) (negative_prompt : Option String)
    (teacher_neg_id_prompt_embs : Option T) (guidance_scale : G)
    (out_image_count : Nat) (ref_img_strength : G) : SamplerCall E P N G :=
  let np := negative_prompt.getD default_negative_prompt
  let enc := encode_prompt M pipeline_name encTypes strs subj
    default_negative_prompt prompt (some np)
  let pe := M.repE enc.prompt_embeds out_image_count
  let npe := match enc.negative_prompt_embeds with
    | none => none
    | some x =>
      some (M.repE (match teacher_neg_id_prompt_embs with
        | none => x
        | some t => M.blendNeg x t) out_image_count)
  if pipeline_name == "text2img3" then
    { image := none, prompt_embeds := pe, negative_prompt_embeds := npe,
      pooled_prompt_embeds :=
        enc.pooled_prompt_embeds.map (fun y => repP y out_image_count),
      negative_pooled_prompt_embeds :=
        enc.negative_pooled_prompt_embeds.map (fun y => repP y out_image_count),
      num_inference_steps := num_inference_steps,
      guidance_scale := guidance_scale, strength := none }
  else if pipeline_name == "flux" then
    { image := none, prompt_embeds := pe, negative_prompt_embeds := none,
      pooled_prompt_embeds := enc.pooled_prompt_embeds,
      negative_pooled_prompt_embeds := none,
      num_inference_steps := 4,
      guidance_scale := guidance_scale, strength := none }
  else
    { image := some noise, prompt_embeds := pe, negative_prompt_embeds := npe,
      pooled_prompt_embeds := none, negative_pooled_prompt_embeds := none,
      num_inference_steps := num_inference_steps,
      guidance_scale := guidance_scale, strength := some ref_img_strength }

/-- C10: for the `flux` backend the negative prompt has no effect:
`encode_prompt` returns `none` for both the negative prompt embedding and
the negative pooled embedding, and two `forward` calls differing only in the
`negative_prompt` argument hand the sampler identical conditioning. -/
theorem C10_flux_ignores_negative_prompt {E P T N G : Type}
    (M : PipelineModel E P T) (repP : P → Nat → P) (encTypes strs : List String)
    (subj : String) (default_negative_prompt : String)
    (num_inference_steps : Nat) (noise : N) (prompt : String)
    (np1 np2 : Option String) (teacher : Option T) (guidance : G)
    (out_image_count : Nat) (strength : G) :
    (encode_prompt M "flux" encTypes strs subj default_negative_prompt
        prompt np1).negative_prompt_embeds = none ∧
    (encode_prompt M "flux" encTypes strs subj default_negative_prompt
        prompt np1).negative_pooled_prompt_embeds = none ∧
    forward M repP "flux" encTypes strs subj default_negative_prompt
        num_inference_steps noise prompt np1 teacher guidance
        out_image_count strength =
      forward M repP "flux" encTypes strs subj default_negative_prompt
        num_inference_steps noise prompt np2 teacher guidance
        out_image_count strength := by
  refine ⟨rfl, rfl, rfl⟩
